import Mathlib

/-!
Verification of the EMTP reference implementation
(src/reference/python/emtp.py) against its natural-language specification.

Strings are modelled as lists of characters (`Str := List Char`), so that a
Python `str` value corresponds to its sequence of code points.  Each
definition below is a direct translation of the Python function of the same
name; doc comments cite the source function.

Unicode notes (stated once, used throughout):
the Python code calls three external Unicode tables — `unicodedata.normalize
("NFKD", ...)`, `unicodedata.combining`, and `str.upper` — and the regex
classes `\d`/`\D`/`\s` (which in Python 3 are Unicode-aware).  Tokens and
literals relevant to every claim are pure ASCII, on which NFKD is the
identity, no character is combining, `upper` is the usual ASCII map, `\d` is
`[0-9]`, and `\s` is `[ \t\n\v\f\r]`.  The embedding fixes those ASCII
semantics in the concrete definitions, and the idempotence theorem is proved
parametrically in the three table functions, assuming of them only what the
real Unicode tables satisfy on the normalized output alphabet `[A-Z0-9 ]`.
-/

/-- A Python string, as its list of code points. -/
abbrev Str := List Char

/-- Embed a Lean string literal as a `Str`. -/
def lit (s : String) : Str := s.data

/-- Membership test of the Python regex class `\s` (ASCII part):
space, tab, newline, vertical tab, form feed, carriage return. -/
def isWS (c : Char) : Bool :=
  c.toNat = 32 || c.toNat = 9 || c.toNat = 10 || c.toNat = 13 || c.toNat = 11 || c.toNat = 12

/-- Membership test of the regex class `[A-Z0-9]` used in step 4 of
`normalize_string` (code points 65–90 and 48–57). -/
def isUpperAlnum (c : Char) : Bool :=
  (65 ≤ c.toNat && c.toNat ≤ 90) || (48 ≤ c.toNat && c.toNat ≤ 57)

/-- Membership test of the regex class `\d` restricted to ASCII (`[0-9]`). -/
def isDigitChar (c : Char) : Bool :=
  48 ≤ c.toNat && c.toNat ≤ 57

/-- The alphabet of `normalize_string` output: `[A-Z0-9]` or a space. -/
def normChar (c : Char) : Bool := isUpperAlnum c || c.toNat = 32

/-- `re.sub(r"\s+", " ", s)`: collapse every maximal whitespace run to one
space.  The boolean argument records whether the previous character was part
of a whitespace run (the run's first character emits the single space). -/
def collapseWS : Bool → Str → Str
  | _, [] => []
  | prev, c :: cs =>
    match isWS c, prev with
    | true, true => collapseWS true cs
    | true, false => ' ' :: collapseWS true cs
    | false, _ => c :: collapseWS false cs

/-- Remove leading whitespace (the left half of Python `str.strip()`). -/
def trimLeft (s : Str) : Str := s.dropWhile isWS

/-- Remove trailing whitespace (the right half of Python `str.strip()`). -/
def trimRight (s : Str) : Str := (s.reverse.dropWhile isWS).reverse

/-- Python `str.strip()` (ASCII whitespace). -/
def trim (s : Str) : Str := trimRight (trimLeft s)

/-- `re.sub(r"\s+", " ", s).strip()` — steps 5 and 6 of `normalize_string`. -/
def squeeze (s : Str) : Str := trim (collapseWS false s)

/-- Step 4 of `normalize_string`: `re.sub(r"[^A-Z0-9]", " ", s)` on one
character. -/
def sanitizeChar (c : Char) : Char := if isUpperAlnum c then c else ' '

/-- `normalize_string` from emtp.py, parametrized by the three external
Unicode tables it calls: `nfkd` for `unicodedata.normalize("NFKD", ·)`,
`comb` for `unicodedata.combining(·) != 0`, and `upper` for `str.upper`.
Steps, in source order: NFKD, strip combining characters, uppercase,
replace non-`[A-Z0-9]` by a space, collapse whitespace, trim. -/
def normalizeStringWith (nfkd : Str → Str) (comb : Char → Bool) (upper : Str → Str)
    (s : Str) : Str :=
  squeeze ((upper ((nfkd s).filter (fun c => !(comb c)))).map sanitizeChar)

/-- `unicodedata.normalize("NFKD", ·)` restricted to ASCII input, where it
is the identity. -/
def nfkdAscii : Str → Str := fun s => s

/-- `unicodedata.combining` restricted to ASCII, where no character is a
combining mark. -/
def combiningAscii : Char → Bool := fun _ => false

/-- `str.upper` restricted to ASCII (`Char.toUpper` maps `a`–`z` to
`A`–`Z` and fixes everything else). -/
def upperAscii : Str → Str := fun s => s.map Char.toUpper

/-- `normalize_string` from emtp.py with the ASCII instantiation of the
Unicode tables. -/
def normalize_string (s : Str) : Str :=
  normalizeStringWith nfkdAscii combiningAscii upperAscii s

/-! ### Character-class facts -/

theorem char_eq_of_toNat_eq {c d : Char} (h : c.toNat = d.toNat) : c = d := by
  apply Char.ext
  exact UInt32.toNat.inj h

theorem upperAlnum_not_ws {c : Char} (h : isUpperAlnum c = true) : isWS c = false := by
  simp only [isUpperAlnum, Bool.or_eq_true, Bool.and_eq_true, decide_eq_true_eq] at h
  simp only [isWS, Bool.or_eq_false_iff, decide_eq_false_iff_not]
  omega

theorem normChar_to_space {c : Char} (h : normChar c = true) (hw : isWS c = true) : c = ' ' := by
  simp only [normChar, Bool.or_eq_true, decide_eq_true_eq] at h
  rcases h with h | h
  · rw [upperAlnum_not_ws h] at hw; cases hw
  · exact char_eq_of_toNat_eq h

theorem space_normChar : normChar ' ' = true := by decide

theorem sanitizeChar_normChar (c : Char) : normChar (sanitizeChar c) = true := by
  unfold sanitizeChar
  split
  · rename_i h; simp [normChar, h]
  · decide

theorem sanitizeChar_fix {c : Char} (h : normChar c = true) : sanitizeChar c = c := by
  unfold sanitizeChar
  split
  · rfl
  · rename_i hn
    simp only [normChar, Bool.or_eq_true, decide_eq_true_eq] at h
    rcases h with h | h
    · exact absurd h (by simpa using hn)
    · exact (char_eq_of_toNat_eq (c := ' ') (d := c) h.symm)

/-! ### `collapseWS`, `trim`, `squeeze`: structural facts -/

theorem mem_collapseWS {c : Char} : ∀ (b : Bool) (s : Str), c ∈ collapseWS b s → c ∈ s ∨ c = ' '
  | _, [], h => by cases h
  | b, x :: xs, h => by
    unfold collapseWS at h
    cases hx : isWS x with
    | true =>
      rw [hx] at h
      cases b with
      | true =>
        rcases mem_collapseWS true xs h with h' | h'
        · exact Or.inl (List.mem_cons_of_mem _ h')
        · exact Or.inr h'
      | false =>
        rcases List.mem_cons.mp h with h' | h'
        · exact Or.inr h'
        · rcases mem_collapseWS true xs h' with h'' | h''
          · exact Or.inl (List.mem_cons_of_mem _ h'')
          · exact Or.inr h''
    | false =>
      rw [hx] at h
      rcases List.mem_cons.mp h with h' | h'
      · exact Or.inl (h' ▸ List.mem_cons_self _ _)
      · rcases mem_collapseWS false xs h' with h'' | h''
        · exact Or.inl (List.mem_cons_of_mem _ h'')
        · exact Or.inr h''

theorem head_collapseWS_true {c : Char} : ∀ (s : Str), (collapseWS true s).head? = some c →
    isWS c = false
  | [], h => by cases h
  | x :: xs, h => by
    unfold collapseWS at h
    cases hx : isWS x with
    | true =>
      rw [hx] at h
      exact head_collapseWS_true xs h
    | false =>
      rw [hx] at h
      simp only [List.head?_cons, Option.some.injEq] at h
      subst h
      exact hx

/-- Adjacent characters in normalized output are never both whitespace. -/
def NoAdjWS (a b : Char) : Prop := isWS a = false ∨ isWS b = false

theorem chain_collapseWS : ∀ (b : Bool) (s : Str), (collapseWS b s).Chain' NoAdjWS
  | _, [] => List.chain'_nil
  | b, x :: xs => by
    unfold collapseWS
    cases hx : isWS x with
    | true =>
      cases b with
      | true => exact chain_collapseWS true xs
      | false =>
        refine List.chain'_cons'.mpr ⟨?_, chain_collapseWS true xs⟩
        intro y hy
        exact Or.inr (head_collapseWS_true xs (by simpa using hy))
    | false =>
      refine List.chain'_cons'.mpr ⟨?_, chain_collapseWS false xs⟩
      intro y _
      exact Or.inl hx

theorem collapseWS_fix : ∀ (s : Str), (∀ c ∈ s, isWS c = true → c = ' ') → s.Chain' NoAdjWS →
    collapseWS false s = s ∧ ((∀ c ∈ s.head?, isWS c = false) → collapseWS true s = s)
  | [], _, _ => ⟨rfl, fun _ => rfl⟩
  | x :: xs, hsp, hch => by
    have hch' := List.chain'_cons'.mp hch
    have ih := collapseWS_fix xs (fun c hc => hsp c (List.mem_cons_of_mem _ hc)) hch'.2
    constructor
    · unfold collapseWS
      cases hx : isWS x with
      | true =>
        have hx' : x = ' ' := hsp x (List.mem_cons_self _ _) hx
        have hxs : collapseWS true xs = xs := by
          apply ih.2
          intro c hc
          rcases hch'.1 c hc with h | h
          · rw [hx] at h; cases h
          · exact h
        rw [hxs, hx']
      | false =>
        rw [ih.1]
    · intro hhd
      unfold collapseWS
      have hx : isWS x = false := hhd x (by simp)
      rw [hx, ih.1]

theorem head_trimLeft {c : Char} {s : Str} (h : (trimLeft s).head? = some c) : isWS c = false := by
  unfold trimLeft at h
  have := List.head?_dropWhile_not isWS s
  rw [h] at this
  simpa using this

theorem trimRight_append (s : Str) : ∃ t, s = trimRight s ++ t ∧ ∀ c ∈ t, isWS c = true := by
  refine ⟨(s.reverse.takeWhile isWS).reverse, ?_, ?_⟩
  · conv_lhs => rw [← s.reverse_reverse, ← List.takeWhile_append_dropWhile isWS s.reverse]
    rw [List.reverse_append]
    rfl
  · intro c hc
    rw [List.mem_reverse] at hc
    exact List.mem_takeWhile_imp hc

theorem trimLeft_append (s : Str) : ∃ t, s = t ++ trimLeft s ∧ ∀ c ∈ t, isWS c = true := by
  refine ⟨s.takeWhile isWS, (List.takeWhile_append_dropWhile isWS s).symm, ?_⟩
  intro c hc
  exact List.mem_takeWhile_imp hc

theorem trim_infix (s : Str) : ∃ t u, s = t ++ trim s ++ u := by
  obtain ⟨t, ht, -⟩ := trimLeft_append s
  obtain ⟨u, hu, -⟩ := trimRight_append (trimLeft s)
  refine ⟨t, u, ?_⟩
  have he : trim s = trimRight (trimLeft s) := rfl
  rw [he, List.append_assoc, ← hu, ← ht]

theorem mem_trim {c : Char} {s : Str} (h : c ∈ trim s) : c ∈ s := by
  obtain ⟨t, u, hs⟩ := trim_infix s
  rw [hs]
  simp [h]

theorem chain_trim {s : Str} (h : s.Chain' NoAdjWS) : (trim s).Chain' NoAdjWS := by
  obtain ⟨t, u, hs⟩ := trim_infix s
  rw [hs] at h
  exact List.Chain'.infix h ⟨t, u, rfl⟩

theorem head_trim {c : Char} {s : Str} (h : (trim s).head? = some c) : isWS c = false := by
  have he : trim s = trimRight (trimLeft s) := rfl
  rw [he] at h
  obtain ⟨u, hu, -⟩ := trimRight_append (trimLeft s)
  apply head_trimLeft (s := s)
  rw [hu]
  rcases hcase : trimRight (trimLeft s) with _ | ⟨y, ys⟩
  · rw [hcase] at h; cases h
  · rw [hcase] at h
    simpa using h

theorem getLast_trim {c : Char} {s : Str} (h : (trim s).getLast? = some c) : isWS c = false := by
  have he : trim s = ((trimLeft s).reverse.dropWhile isWS).reverse := rfl
  rw [he, List.getLast?_reverse] at h
  have := List.head?_dropWhile_not isWS (trimLeft s).reverse
  rw [h] at this
  simpa using this

theorem trimLeft_fix {s : Str} (h : ∀ c ∈ s.head?, isWS c = false) : trimLeft s = s := by
  unfold trimLeft
  cases s with
  | nil => rfl
  | cons x xs =>
    rw [List.dropWhile_cons]
    have hx : isWS x = false := h x (by simp)
    simp [hx]

theorem trimRight_fix {s : Str} (h : ∀ c ∈ s.getLast?, isWS c = false) : trimRight s = s := by
  unfold trimRight
  have h' : ∀ c ∈ s.reverse.head?, isWS c = false := by
    intro c hc
    apply h
    rw [← List.getLast?_reverse, List.reverse_reverse] at hc
    exact hc
  rw [show s.reverse.dropWhile isWS = trimLeft s.reverse from rfl, trimLeft_fix h',
    List.reverse_reverse]

theorem trim_fix {s : Str} (h1 : ∀ c ∈ s.head?, isWS c = false)
    (h2 : ∀ c ∈ s.getLast?, isWS c = false) : trim s = s := by
  have he : trim s = trimRight (trimLeft s) := rfl
  rw [he, trimLeft_fix h1, trimRight_fix h2]

/-! ### The squeeze fixpoint and charset of `normalize_string` output -/

theorem mem_squeeze {c : Char} {s : Str} (h : c ∈ squeeze s) : c ∈ s ∨ c = ' ' := by
  unfold squeeze at h
  exact mem_collapseWS false s (mem_trim h)

theorem chain_squeeze (s : Str) : (squeeze s).Chain' NoAdjWS :=
  chain_trim (chain_collapseWS false s)

theorem head_squeeze {c : Char} {s : Str} (h : (squeeze s).head? = some c) : isWS c = false :=
  head_trim h

theorem getLast_squeeze {c : Char} {s : Str} (h : (squeeze s).getLast? = some c) :
    isWS c = false := getLast_trim h

theorem squeeze_fix {s : Str} (hcs : ∀ c ∈ s, normChar c = true) (hch : s.Chain' NoAdjWS)
    (h1 : ∀ c ∈ s.head?, isWS c = false) (h2 : ∀ c ∈ s.getLast?, isWS c = false) :
    squeeze s = s := by
  unfold squeeze
  have hc : collapseWS false s = s :=
    (collapseWS_fix s (fun c hc hw => normChar_to_space (hcs c hc) hw) hch).1
  rw [hc, trim_fix h1 h2]

theorem mem_normalizeStringWith {nfkd : Str → Str} {comb : Char → Bool} {upper : Str → Str}
    {s : Str} {c : Char} (h : c ∈ normalizeStringWith nfkd comb upper s) : normChar c = true := by
  unfold normalizeStringWith at h
  rcases mem_squeeze h with h' | h'
  · obtain ⟨d, -, hd⟩ := List.mem_map.mp h'
    rw [← hd]
    exact sanitizeChar_normChar d
  · rw [h']
    exact space_normChar

theorem map_sanitize_fix : ∀ (t : Str), (∀ c ∈ t, normChar c = true) → t.map sanitizeChar = t
  | [], _ => rfl
  | c :: cs, h => by
    simp only [List.map_cons]
    rw [sanitizeChar_fix (h c (List.mem_cons_self _ _)),
      map_sanitize_fix cs (fun d hd => h d (List.mem_cons_of_mem _ hd))]

/-- Claim C7: the six-step normalization of `normalize_string` is
idempotent, for any realization `nfkd`/`comb`/`upper` of the three external
Unicode tables that (as the real tables do) fixes strings over the output
alphabet `[A-Z0-9 ]`, marks none of its characters as combining, and fixes
strings over it under uppercasing. -/
theorem normalize_string_idempotent
    (nfkd : Str → Str) (comb : Char → Bool) (upper : Str → Str)
    (hn : ∀ l : Str, (∀ c ∈ l, normChar c = true) → nfkd l = l)
    (hc : ∀ c : Char, normChar c = true → comb c = false)
    (hu : ∀ l : Str, (∀ c ∈ l, normChar c = true) → upper l = l)
    (s : Str) :
    normalizeStringWith nfkd comb upper (normalizeStringWith nfkd comb upper s) =
      normalizeStringWith nfkd comb upper s := by
  set t := normalizeStringWith nfkd comb upper s with ht
  have hchar : ∀ c ∈ t, normChar c = true := fun c hcm => mem_normalizeStringWith hcm
  have h1 : nfkd t = t := hn t hchar
  have h2 : t.filter (fun c => !(comb c)) = t := by
    apply List.filter_eq_self.mpr
    intro c hcm
    rw [hc c (hchar c hcm)]
    rfl
  have h3 : upper t = t := hu t hchar
  have h4 : t.map sanitizeChar = t := map_sanitize_fix t hchar
  have hsq : squeeze t = t := by
    apply squeeze_fix hchar
    · rw [ht]
      unfold normalizeStringWith
      exact chain_squeeze _
    · intro c hcm
      apply head_squeeze (s := (upper ((nfkd s).filter fun c => !(comb c))).map sanitizeChar)
      exact hcm
    · intro c hcm
      apply getLast_squeeze (s := (upper ((nfkd s).filter fun c => !(comb c))).map sanitizeChar)
      exact hcm
  show squeeze ((upper ((nfkd t).filter fun c => !(comb c))).map sanitizeChar) = t
  rw [h1, h2, h3, h4, hsq]

/-- Witness for C7 at a concrete input, instantiating the table parameters
with functions satisfying the hypotheses. -/
theorem normalize_string_idempotent_witness :
    normalizeStringWith (fun l => l) (fun _ => false) (fun l => l)
        (normalizeStringWith (fun l => l) (fun _ => false) (fun l => l) (lit "  B2B,  x-1!  ")) =
      normalizeStringWith (fun l => l) (fun _ => false) (fun l => l) (lit "  B2B,  x-1!  ") :=
  normalize_string_idempotent (fun l => l) (fun _ => false) (fun l => l)
    (fun _ _ => rfl) (fun _ _ => rfl) (fun _ _ => rfl) (lit "  B2B,  x-1!  ")

/-! ### Generic string helpers used by the parsers -/

/-- One left-to-right pass of Python `str.split()` (no argument): `acc`
holds the (reversed) characters of the token being read; a whitespace
character closes the token, and no empty tokens are emitted. -/
def splitWSAux : Str → Str → List Str
  | [], acc => if acc.isEmpty then [] else [acc.reverse]
  | c :: cs, acc =>
    if isWS c then
      (if acc.isEmpty then splitWSAux cs [] else acc.reverse :: splitWSAux cs [])
    else splitWSAux cs (c :: acc)

/-- Python `str.split()` with no argument: split on whitespace runs,
dropping empty pieces. -/
def splitWS (s : Str) : List Str := splitWSAux s []

/-- Python `sep.join(parts)`. -/
def joinWith (sep : Str) : List Str → Str
  | [] => []
  | [x] => x
  | x :: y :: ys => x ++ sep ++ joinWith sep (y :: ys)

/-- Python `s[-n:]` for `n ≥ 1`. -/
def takeLast (n : Nat) (s : Str) : Str := s.drop (s.length - n)

/-! ### `ParsedName` (emtp.py class ParsedName) and `normalize_name` -/

/-- Parsed name components (dataclass `ParsedName`). -/
structure ParsedName where
  given : Str
  middles : List Str
  family : Str
  suffix : Str
deriving DecidableEq

/-- Property `ParsedName.full`: `" ".join(p for p in [given]+middles+[family] if p)`. -/
def ParsedName.full (n : ParsedName) : Str :=
  joinWith [' '] (([n.given] ++ n.middles ++ [n.family]).filter (fun p => !p.isEmpty))

/-- Property `ParsedName.given_family`: `f"{given} {family}".strip()`. -/
def ParsedName.given_family (n : ParsedName) : Str :=
  trim (n.given ++ [' '] ++ n.family)

/-- Property `ParsedName.given_family_suffix`. -/
def ParsedName.given_family_suffix (n : ParsedName) : Str :=
  if !n.suffix.isEmpty then trim (n.given ++ [' '] ++ n.family ++ [' '] ++ n.suffix)
  else n.given_family

/-- Property `ParsedName.initials_family`:
`" ".join(([given[0]] if given else []) + [m[0] for m in middles if m] + [family]).strip()`. -/
def ParsedName.initials_family (n : ParsedName) : Str :=
  trim (joinWith [' ']
    (((if !n.given.isEmpty then [n.given.take 1] else []) ++
      (n.middles.filter (fun m => !m.isEmpty)).map (fun m => m.take 1)) ++ [n.family]))

/-- The fixed honorific set `HONORIFICS`. -/
def HONORIFICS : List Str :=
  [lit "MR", lit "MRS", lit "MS", lit "MISS", lit "DR", lit "PROF", lit "REV", lit "SIR",
   lit "MADAM"]

/-- The fixed suffix table `SUFFIX_MAP` (insertion order preserved). -/
def SUFFIX_MAP : List (Str × Str) :=
  [(lit "JR", lit "JR"), (lit "JUNIOR", lit "JR"), (lit "SR", lit "SR"),
   (lit "SENIOR", lit "SR"), (lit "I", lit "I"), (lit "II", lit "II"), (lit "III", lit "III"),
   (lit "IV", lit "IV"), (lit "V", lit "V"), (lit "VI", lit "VI")]

/-- Step "remove leading honorific" of `normalize_name`: drop the first
token when more than two tokens are present and it belongs to
`HONORIFICS`. -/
def dropHonorific (toks : List Str) : List Str :=
  match toks with
  | t0 :: rest => if 2 < toks.length ∧ t0 ∈ HONORIFICS then rest else toks
  | [] => []

/-- Step "detect and extract suffix" of `normalize_name`: when more than
one token is present and the last is in `SUFFIX_MAP`, return its canonical
form and the remaining tokens. -/
def extractSuffix (toks : List Str) : Str × List Str :=
  if 1 < toks.length then
    match toks.getLast? with
    | some last =>
      match SUFFIX_MAP.lookup last with
      | some sf => (sf, toks.dropLast)
      | none => ([], toks)
    | none => ([], toks)
  else ([], toks)

/-- Step "parse into given/middles/family" of `normalize_name`. -/
def assignParts (toks : List Str) (sfx : Str) : ParsedName :=
  match toks with
  | [] => ParsedName.mk [] [] [] sfx
  | [t] => ParsedName.mk t [] t sfx
  | t :: u :: us =>
    ParsedName.mk t ((u :: us).dropLast) ((u :: us).getLast (List.cons_ne_nil u us)) sfx

/-- `normalize_name` from emtp.py: normalize, tokenize (`str.split()`),
return the empty parse when no tokens remain, else drop a leading
honorific, extract a trailing suffix, and assign the parts. -/
def normalize_name (name : Str) : ParsedName :=
  match splitWS (normalize_string name) with
  | [] => ParsedName.mk [] [] [] []
  | t0 :: rest =>
    let pr := extractSuffix (dropHonorific (t0 :: rest))
    assignParts pr.2 pr.1

/-! ### `normalize_dob` -/

/-- The four `ValueError` sites of `normalize_dob`, in source order. -/
inductive DobError where
  | badPattern
  | badYear
  | badMonth
  | badDay
deriving DecidableEq

/-- Python `str.strip()` with an explicit whitespace class `ws` — the real
class is the full Unicode whitespace table, of which `isWS` is the ASCII
part.  (`trimBy isWS` is definitionally the `trim` used above.) -/
def trimBy (ws : Char → Bool) (s : Str) : Str :=
  ((s.dropWhile ws).reverse.dropWhile ws).reverse

/-- `re.match(r"^\d{4}-\d{2}-\d{2}$", d)` as a whole-string test, with an
explicit digit class `dig` for `\d` — the real class is the Unicode decimal
digits (category Nd), of which `isDigitChar` is the ASCII part.  The input
is stripped first, so the `$`-before-final-newline subtlety of `re.match`
cannot arise. -/
def dobPatternWith (dig : Char → Bool) (d : Str) : Bool :=
  match d with
  | [y1, y2, y3, y4, s1, m1, m2, s2, d1, d2] =>
    dig y1 && dig y2 && dig y3 && dig y4 &&
    (s1 == '-') && dig m1 && dig m2 && (s2 == '-') &&
    dig d1 && dig d2
  | _ => false

/-- The pattern test at the ASCII digit class. -/
def dobPatternB (d : Str) : Bool := dobPatternWith isDigitChar d

/-- Python `int(...)` on a digit string, with an explicit digit-value table
`dv` — the real table maps every Unicode decimal digit to its value, and
`digitValAscii` is its ASCII part. -/
def toNatDigitsWith (dv : Char → Nat) (s : Str) : Nat :=
  s.foldl (fun a c => 10 * a + dv c) 0

/-- The value of an ASCII digit under `int(...)`. -/
def digitValAscii (c : Char) : Nat := c.toNat - 48

/-- `int(...)` on a digit string at the ASCII digit-value table. -/
def toNatDigits (s : Str) : Nat := toNatDigitsWith digitValAscii s

/-- `normalize_dob` from emtp.py, parametrized by the three external
Unicode tables it consults: `ws` for the whitespace class of `str.strip()`,
`dig` for the regex class `\d`, and `dv` for the numeric value `int()`
assigns to each digit.  A raised `ValueError` is modelled as
`Except.error`.  On a pattern match, `dob.split("-")` yields exactly the
character ranges 0–3, 5–6 and 8–9, which is how the three `int` arguments
are written here. -/
def normalize_dobWith (ws dig : Char → Bool) (dv : Char → Nat) (dob : Str) :
    Except DobError Str :=
  let d := trimBy ws dob
  if !(dobPatternWith dig d) then .error .badPattern
  else
    let year := toNatDigitsWith dv (d.take 4)
    let month := toNatDigitsWith dv ((d.drop 5).take 2)
    let day := toNatDigitsWith dv ((d.drop 8).take 2)
    if ¬(1800 ≤ year ∧ year ≤ 2100) then .error .badYear
    else if ¬(1 ≤ month ∧ month ≤ 12) then .error .badMonth
    else if ¬(1 ≤ day ∧ day ≤ 31) then .error .badDay
    else .ok d

/-- `normalize_dob` at the ASCII instantiation of the three tables (see the
header note: every concrete record evaluated below is ASCII, where this
instantiation agrees with the real tables; the C4 theorem is parametric in
them). -/
def normalize_dob (dob : Str) : Except DobError Str :=
  normalize_dobWith isWS isDigitChar digitValAscii dob

/-- The validity condition of the specification's failure-semantics
sentence, applied to an already stripped string, over the same digit
tables: exact `YYYY-MM-DD` shape and in-range year, month, day. -/
def DobValidWith (dig : Char → Bool) (dv : Char → Nat) (d : Str) : Prop :=
  dobPatternWith dig d = true ∧
  (1800 ≤ toNatDigitsWith dv (d.take 4) ∧ toNatDigitsWith dv (d.take 4) ≤ 2100) ∧
  (1 ≤ toNatDigitsWith dv ((d.drop 5).take 2) ∧
    toNatDigitsWith dv ((d.drop 5).take 2) ≤ 12) ∧
  (1 ≤ toNatDigitsWith dv ((d.drop 8).take 2) ∧
    toNatDigitsWith dv ((d.drop 8).take 2) ≤ 31)

theorem normalize_dobWith_error_iff (ws dig : Char → Bool) (dv : Char → Nat) (s : Str) :
    (∃ e, normalize_dobWith ws dig dv s = .error e) ↔
      ¬ DobValidWith dig dv (trimBy ws s) := by
  unfold normalize_dobWith DobValidWith
  by_cases hp : dobPatternWith dig (trimBy ws s) = true <;>
  by_cases hy : 1800 ≤ toNatDigitsWith dv ((trimBy ws s).take 4) ∧
    toNatDigitsWith dv ((trimBy ws s).take 4) ≤ 2100 <;>
  by_cases hm : 1 ≤ toNatDigitsWith dv (((trimBy ws s).drop 5).take 2) ∧
    toNatDigitsWith dv (((trimBy ws s).drop 5).take 2) ≤ 12 <;>
  by_cases hdy : 1 ≤ toNatDigitsWith dv (((trimBy ws s).drop 8).take 2) ∧
    toNatDigitsWith dv (((trimBy ws s).drop 8).take 2) ≤ 31 <;>
  simp [hp, hy, hm, hdy]

/-! ### `normalize_phone` and `phone_variants` -/

/-- `normalize_phone` from emtp.py.  `re.sub(r"\D", "", phone)` is digit
filtering; the branch order follows the source. -/
def normalize_phone (phone : Str) (default_country : String) : Str :=
  let digits := phone.filter isDigitChar
  if digits.isEmpty then []
  else if default_country = "US" ∧ digits.length = 11 ∧ digits.take 1 = ['1'] then
    '+' :: digits
  else if default_country = "US" ∧ digits.length = 10 then '+' :: '1' :: digits
  else if 10 ≤ digits.length then '+' :: digits
  else digits

/-- The variant dict built by `phone_variants`: its three possible keys
`PHONE_E164`, `PHONE_NATIONAL`, `PHONE_LAST10` as optional fields (a key is
in the dict exactly when the field is `some`). -/
structure PhoneVariants where
  e164? : Option Str
  national? : Option Str
  last10? : Option Str
deriving DecidableEq

/-- `phone_variants` from emtp.py: the three conditional dict inserts, in
source order. -/
def phone_variants (phone : Str) (default_country : String) : PhoneVariants :=
  let e164 := normalize_phone phone default_country
  let digits := phone.filter isDigitChar
  PhoneVariants.mk
    (if ¬e164.isEmpty then some e164 else none)
    (if (lit "+1") <+: e164 ∧ e164.length = 12 then some (e164.drop 2)
     else if ¬digits.isEmpty then some digits else none)
    (if 10 ≤ digits.length then some (takeLast 10 digits) else none)

/-- Claim C1 (code bug, evaluation at the failing input): for the phone
string "555-1234" the extracted digit count is 7 < 10, yet `normalize_phone`
returns the raw digit string "5551234" (not the empty string the spec's
"Else: E.164 is empty" dictates and the function's own docstring — "Returns
E.164 format with + prefix" — implies), so `phone_variants` does emit a
PHONE_E164 entry. -/
theorem c1_code_eval :
    ((lit "555-1234").filter isDigitChar).length < 10 ∧
    normalize_phone (lit "555-1234") "US" = lit "5551234" ∧
    (phone_variants (lit "555-1234") "US").e164? = some (lit "5551234") := by
  decide

/-- Claim C2, counterexample: for "21234567890" (11 digits not starting
with 1) the E.164 string "+21234567890" is nonempty and not of the
"+1"-length-12 shape, yet PHONE_NATIONAL is present (as the raw digit
string) — the claim asserts it is absent in this case. -/
theorem c2_counterexample :
    normalize_phone (lit "21234567890") "US" = lit "+21234567890" ∧
    ¬((lit "+1") <+: normalize_phone (lit "21234567890") "US" ∧
      (normalize_phone (lit "21234567890") "US").length = 12) ∧
    (phone_variants (lit "21234567890") "US").national? = some (lit "21234567890") := by
  decide

/-- Claim C2 (amended): PHONE_NATIONAL is the E.164 string with "+1"
stripped (10 digits) when that string has length 12 and starts with "+1";
otherwise PHONE_NATIONAL is the raw extracted digit string whenever that is
nonempty — even when the E.164 string is nonempty — and PHONE_NATIONAL is
absent exactly when no digit was extracted. -/
theorem c2_amended (p : Str) :
    ((lit "+1") <+: normalize_phone p "US" ∧ (normalize_phone p "US").length = 12 →
      (phone_variants p "US").national? = some ((normalize_phone p "US").drop 2) ∧
      ((normalize_phone p "US").drop 2).length = 10) ∧
    (¬((lit "+1") <+: normalize_phone p "US" ∧ (normalize_phone p "US").length = 12) →
      (¬(p.filter isDigitChar).isEmpty →
        (phone_variants p "US").national? = some (p.filter isDigitChar)) ∧
      ((p.filter isDigitChar).isEmpty →
        (phone_variants p "US").national? = none)) := by
  refine ⟨fun h => ⟨?_, ?_⟩, fun h => ⟨fun hd => ?_, fun hd => ?_⟩⟩
  · show (if _ then _ else _) = _
    rw [if_pos h]
  · rw [List.length_drop, h.2]
  · show (if _ then _ else _) = _
    rw [if_neg h, if_pos hd]
  · show (if _ then _ else _) = _
    have : ¬¬(p.filter isDigitChar).isEmpty = true := by simp [hd]
    rw [if_neg h, if_neg this]

/-- Witness for C2's amended theorem at a concrete input: a 10-digit US
number takes the "+1" branch; a 7-digit string takes the raw-digits branch. -/
theorem c2_amended_witness :
    (phone_variants (lit "(212) 555-0100") "US").national? = some (lit "2125550100") ∧
    (phone_variants (lit "555-1234") "US").national? = some (lit "5551234") :=
  ⟨((c2_amended (lit "(212) 555-0100")).1 (by decide)).1.trans (by decide),
   ((c2_amended (lit "555-1234")).2 (by decide)).1 (by decide)⟩

/-! ### Addresses: `parse_address`, `normalize_address_component`,
`address_variants` -/

/-- Dataclass `StructuredAddress`.  The Python `dict` input branch of
`parse_address` reads the six keys with defaults (`""`, country `"US"`);
a dict input is modelled as the structured record carrying those values. -/
structure StructuredAddress where
  line1 : Str
  line2 : Str
  city : Str
  state : Str
  postal_code : Str
  country : Str
deriving DecidableEq

/-- The `Union[str, dict]` address argument: free-form text or a
structured record. -/
inductive AddressInput where
  | freeform (s : Str)
  | structured (a : StructuredAddress)
deriving DecidableEq

/-- Python `s.split(sep)` for a one-character separator (keeps empty
pieces; always returns at least one piece). -/
def splitOnChar (sep : Char) : Str → List Str
  | [] => [[]]
  | c :: cs =>
    if c = sep then [] :: splitOnChar sep cs
    else
      match splitOnChar sep cs with
      | [] => [[c]]
      | s :: ss => (c :: s) :: ss

/-- The left-to-right scan of Python `s.replace(pat, "")`, written with a
step-count (fuel) argument so that the recursion is structural: each step
consumes at least one character, so `s.length` steps always suffice. -/
def removeAllFuel : Nat → Str → Str → Str
  | 0, _, _ => []
  | _ + 1, _, [] => []
  | fuel + 1, pat, c :: rest =>
    if pat ≠ [] ∧ pat <+: (c :: rest) then removeAllFuel fuel pat ((c :: rest).drop pat.length)
    else c :: removeAllFuel fuel pat rest

/-- Python `s.replace(pat, "")` — remove every (non-overlapping,
left-to-right) occurrence of `pat`. -/
def removeAll (pat s : Str) : Str := removeAllFuel s.length pat s

/-- `re.search(r"([A-Z0-9]{2,})\s*$", sp)`'s group: the maximal trailing
run of `[A-Z0-9]` characters that is followed only by whitespace (here
returned without the ≥ 2 length requirement, which the caller checks). -/
def trailingAlnumRun (sp : Str) : Str :=
  ((sp.reverse.dropWhile isWS).takeWhile isUpperAlnum).reverse

/-- The comma parts of the free-form branch of `parse_address`:
`[p.strip() for p in normalized.split(",") if p.strip()]`. -/
def addressParts (s : Str) : List Str :=
  ((splitOnChar ',' (normalize_string s)).map trim).filter (fun p => !p.isEmpty)

/-- `parse_address` from emtp.py. -/
def parse_address : AddressInput → StructuredAddress
  | .structured a => a
  | .freeform address =>
    match addressParts address with
    | p1 :: p2 :: p3 :: _ =>
      let postal := trailingAlnumRun p3
      let postal_code := if 2 ≤ postal.length then postal else []
      let state := if ¬postal_code.isEmpty then trim (removeAll postal_code p3) else p3
      StructuredAddress.mk p1 [] p2 state postal_code (lit "US")
    | [p1, p2] => StructuredAddress.mk p1 [] p2 [] [] (lit "US")
    | [p1] => StructuredAddress.mk p1 [] [] [] [] (lit "US")
    | [] => StructuredAddress.mk (normalize_string address) [] [] [] [] (lit "US")

/-- The fixed table `ADDR_ABBREVS` (insertion order preserved). -/
def ADDR_ABBREVS : List (Str × Str) :=
  [(lit "STREET", lit "ST"), (lit "AVENUE", lit "AVE"), (lit "ROAD", lit "RD"),
   (lit "BOULEVARD", lit "BLVD"), (lit "DRIVE", lit "DR"), (lit "LANE", lit "LN"),
   (lit "COURT", lit "CT"), (lit "PLACE", lit "PL"), (lit "APARTMENT", lit "APT"),
   (lit "SUITE", lit "STE")]

/-- `re.sub(rf"\b{long}\b", short, s)` for an all-alphanumeric pattern on a
collapsed alphanumeric-and-space string: word boundaries on such a string
delimit exactly the space-separated tokens, so the substitution replaces
whole tokens. -/
def replaceTok (lf sf : Str) (s : Str) : Str :=
  joinWith [' '] ((splitWS s).map (fun t => if t = lf then sf else t))

/-- `normalize_address_component` from emtp.py: general normalization,
then the abbreviation passes in table order. -/
def normalize_address_component (s : Str) : Str :=
  ADDR_ABBREVS.foldl (fun acc pr => replaceTok pr.1 pr.2 acc) (normalize_string s)

/-- The variant dict built by `address_variants`: its four possible keys
`ADDR_LINE1_POSTAL`, `ADDR_LINE1_CITY_STATE`, `ADDR_LINE1_CITY_STATE_POSTAL`,
`ADDR_NO_UNIT` as optional fields. -/
structure AddrVariants where
  line1_postal? : Option Str
  line1_city_state? : Option Str
  line1_city_state_postal? : Option Str
  no_unit? : Option Str
deriving DecidableEq

/-- `re.split(r"\b(APT|UNIT|STE)\b", line1)[0].strip()`: the tokens before
the first whole-token occurrence of APT/UNIT/STE (token semantics as in
`replaceTok`; the input is a collapsed normalized string). -/
def noUnitOf (line1 : Str) : Str :=
  joinWith [' ']
    ((splitWS line1).takeWhile
      (fun t => !((t == lit "APT") || (t == lit "UNIT") || (t == lit "STE"))))

/-- `address_variants` from emtp.py: parse, normalize the four used
components, then the four conditional dict inserts, in source order. -/
def address_variants (address : AddressInput) : AddrVariants :=
  let parsed := parse_address address
  let line1 := normalize_address_component parsed.line1
  let city := normalize_string parsed.city
  let state := normalize_string parsed.state
  let postal := normalize_string parsed.postal_code
  let no_unit := noUnitOf line1
  AddrVariants.mk
    (if ¬line1.isEmpty ∧ ¬postal.isEmpty then some (line1 ++ ['|'] ++ postal) else none)
    (if ¬line1.isEmpty ∧ ¬city.isEmpty ∧ ¬state.isEmpty then
      some (line1 ++ ['|'] ++ city ++ ['|'] ++ state)
    else none)
    (if ¬line1.isEmpty ∧ ¬city.isEmpty ∧ ¬state.isEmpty ∧ ¬postal.isEmpty then
      some (line1 ++ ['|'] ++ city ++ ['|'] ++ state ++ ['|'] ++ postal)
    else none)
    (if ¬no_unit.isEmpty ∧ no_unit ≠ line1 then some no_unit else none)

/-! ### C3: the multi-part branch of free-form address parsing is dead -/

theorem splitOnChar_no_sep {sep : Char} : ∀ (l : Str), (∀ c ∈ l, c ≠ sep) →
    splitOnChar sep l = [l]
  | [], _ => rfl
  | c :: cs, h => by
    unfold splitOnChar
    rw [if_neg (h c (List.mem_cons_self _ _)),
      splitOnChar_no_sep cs (fun d hd => h d (List.mem_cons_of_mem _ hd))]

theorem addressParts_le_one (s : Str) : (addressParts s).length ≤ 1 := by
  unfold addressParts
  have hnc : ∀ c ∈ normalize_string s, c ≠ ',' := by
    intro c hc he
    have := mem_normalizeStringWith
      (show c ∈ normalizeStringWith nfkdAscii combiningAscii upperAscii s from hc)
    rw [he] at this
    exact absurd this (by decide)
  rw [splitOnChar_no_sep _ hnc]
  by_cases h : (trim (normalize_string s)).isEmpty <;> simp [h]

/-- Claim C3 (code bug): the free-form branch of `parse_address` can never
see two or more comma-separated parts, because `normalize_string` has
already replaced every comma by a space before the split; so the ≥3-part
rule the claim (and the spec) describe is unreachable, and a three-part
address string lands whole in `line1` with city/state/postal left empty. -/
theorem c3_theorem :
    (∀ s : Str, (addressParts s).length ≤ 1) ∧
    parse_address (.freeform (lit "221B Baker Street, London, NW1 6XE")) =
      StructuredAddress.mk (lit "221B BAKER STREET LONDON NW1 6XE") [] [] [] [] (lit "US") :=
  ⟨addressParts_le_one, by decide⟩

/-! ### C10: `line2` and `country` never influence address variants -/

/-- Claim C10: two structured addresses agreeing on line1, city, state and
postal_code produce identical variant maps, whatever their line2 and
country. -/
theorem c10_line2_country_irrelevant (a b : StructuredAddress)
    (h1 : a.line1 = b.line1) (h2 : a.city = b.city) (h3 : a.state = b.state)
    (h4 : a.postal_code = b.postal_code) :
    address_variants (.structured a) = address_variants (.structured b) := by
  unfold address_variants parse_address
  dsimp only
  rw [h1, h2, h3, h4]

/-- Witness for C10: concrete addresses differing in line2 and country. -/
theorem c10_witness :
    (StructuredAddress.mk (lit "20 Northmoor Rd") (lit "Flat 2") (lit "Oxford") (lit "OX")
        (lit "OX2 6") (lit "US")).line2 ≠
      (StructuredAddress.mk (lit "20 Northmoor Rd") [] (lit "Oxford") (lit "OX")
        (lit "OX2 6") (lit "GB")).line2 ∧
    (StructuredAddress.mk (lit "20 Northmoor Rd") (lit "Flat 2") (lit "Oxford") (lit "OX")
        (lit "OX2 6") (lit "US")).country ≠
      (StructuredAddress.mk (lit "20 Northmoor Rd") [] (lit "Oxford") (lit "OX")
        (lit "OX2 6") (lit "GB")).country ∧
    address_variants (.structured (StructuredAddress.mk (lit "20 Northmoor Rd") (lit "Flat 2")
        (lit "Oxford") (lit "OX") (lit "OX2 6") (lit "US"))) =
      address_variants (.structured (StructuredAddress.mk (lit "20 Northmoor Rd") []
        (lit "Oxford") (lit "OX") (lit "OX2 6") (lit "GB"))) :=
  ⟨by decide, by decide,
   c10_line2_country_irrelevant _ _ rfl rfl rfl rfl⟩

/-! ### Sorting: Python `sorted` on strings (code-point lexicographic) -/

/-- Python string order: lexicographic on code points. -/
def lexLe : Str → Str → Bool
  | [], _ => true
  | _ :: _, [] => false
  | a :: t1, b :: t2 =>
    if a.toNat < b.toNat then true
    else if b.toNat < a.toNat then false
    else lexLe t1 t2

/-- `lexLe` as a relation. -/
def LexLeP (a b : Str) : Prop := lexLe a b = true

theorem lexLe_total : ∀ a b : Str, lexLe a b = true ∨ lexLe b a = true
  | [], _ => Or.inl rfl
  | _ :: _, [] => Or.inr rfl
  | a :: t1, b :: t2 => by
    unfold lexLe
    rcases Nat.lt_trichotomy a.toNat b.toNat with h | h | h
    · left; rw [if_pos h]
    · rw [if_neg (by omega), if_neg (by omega), if_neg (by omega), if_neg (by omega)]
      exact lexLe_total t1 t2
    · right; rw [if_pos h]

theorem lexLe_trans : ∀ a b c : Str, lexLe a b = true → lexLe b c = true → lexLe a c = true
  | [], _, _, _, _ => rfl
  | _ :: _, [], _, h, _ => by cases h
  | _ :: _, _ :: _, [], _, h => by cases h
  | a :: t1, b :: t2, c :: t3, h1, h2 => by
    unfold lexLe at h1 h2 ⊢
    by_cases hab : a.toNat < b.toNat
    · by_cases hbc : b.toNat < c.toNat
      · rw [if_pos (by omega)]
      · rw [if_neg hbc] at h2
        by_cases hcb : c.toNat < b.toNat
        · rw [if_pos hcb] at h2; cases h2
        · rw [if_pos (by omega)]
    · rw [if_neg hab] at h1
      by_cases hba : b.toNat < a.toNat
      · rw [if_pos hba] at h1; cases h1
      · rw [if_neg hba] at h1
        by_cases hbc : b.toNat < c.toNat
        · rw [if_pos (by omega)]
        · rw [if_neg hbc] at h2
          by_cases hcb : c.toNat < b.toNat
          · rw [if_pos hcb] at h2; cases h2
          · rw [if_neg hcb] at h2
            rw [if_neg (by omega), if_neg (by omega)]
            exact lexLe_trans t1 t2 t3 h1 h2

/-- One step of insertion sort. -/
def insertLe (x : Str) : List Str → List Str
  | [] => [x]
  | y :: ys => if lexLe x y then x :: y :: ys else y :: insertLe x ys

/-- Insertion sort with `lexLe`; on a duplicate-free list this computes the
unique `lexLe`-sorted reordering — what Python `sorted` returns on a set. -/
def sortStr : List Str → List Str
  | [] => []
  | x :: xs => insertLe x (sortStr xs)

theorem perm_insertLe (x : Str) : ∀ l : List Str, List.Perm (insertLe x l) (x :: l)
  | [] => List.Perm.refl _
  | y :: ys => by
    unfold insertLe
    split
    · exact List.Perm.refl _
    · exact ((perm_insertLe x ys).cons y).trans (List.Perm.swap x y ys)

theorem perm_sortStr : ∀ l : List Str, List.Perm (sortStr l) l
  | [] => List.Perm.refl _
  | x :: xs => (perm_insertLe x (sortStr xs)).trans ((perm_sortStr xs).cons x)

theorem mem_sortStr {z : Str} {l : List Str} : z ∈ sortStr l ↔ z ∈ l :=
  (perm_sortStr l).mem_iff

theorem nodup_sortStr {l : List Str} (h : l.Nodup) : (sortStr l).Nodup :=
  (perm_sortStr l).nodup_iff.mpr h

theorem sorted_insertLe (x : Str) : ∀ l : List Str, l.Pairwise LexLeP →
    (insertLe x l).Pairwise LexLeP
  | [], _ => List.pairwise_singleton _ _
  | y :: ys, h => by
    unfold insertLe
    rcases List.pairwise_cons.mp h with ⟨hy, hys⟩
    split
    · rename_i hxy
      refine List.pairwise_cons.mpr ⟨?_, h⟩
      intro z hz
      rcases List.mem_cons.mp hz with h1 | h1
      · subst h1
        exact hxy
      · exact lexLe_trans x y z hxy (hy z h1)
    · rename_i hxy
      refine List.pairwise_cons.mpr ⟨?_, sorted_insertLe x ys hys⟩
      intro z hz
      rcases List.mem_cons.mp ((perm_insertLe x ys).mem_iff.mp hz) with h1 | h1
      · subst h1
        rcases lexLe_total z y with h2 | h2
        · exact absurd h2 hxy
        · exact h2
      · exact hy z h1

theorem sorted_sortStr : ∀ l : List Str, (sortStr l).Pairwise LexLeP
  | [] => List.Pairwise.nil
  | x :: xs => sorted_insertLe x (sortStr xs) (sorted_sortStr xs)

/-! ### `normalize_idno` -/

/-- One left-to-right pass computing the maximal digit runs of a string;
`acc` holds the (reversed) digits of the run being read. -/
def digitRunsAux : Str → Str → List Str
  | [], acc => if acc.isEmpty then [] else [acc.reverse]
  | c :: cs, acc =>
    if isDigitChar c then digitRunsAux cs (c :: acc)
    else if acc.isEmpty then digitRunsAux cs [] else acc.reverse :: digitRunsAux cs []

/-- The matches of `re.findall(r"\d{4,}", s)` before the length filter:
the maximal runs of digits in `s`. -/
def digitRuns (s : Str) : List Str := digitRunsAux s []

/-- `normalize_idno` from emtp.py: for each digit run of length ≥ 4, the
last 4 (and last 5, last 6 when long enough) digits, as a deduplicated
sorted list (`sorted(variants)` on the Python set). -/
def normalize_idno (idno : Str) : List Str :=
  let sequences := (digitRuns idno).filter (fun r => 4 ≤ r.length)
  let variants := sequences.flatMap (fun seq =>
    (if 4 ≤ seq.length then [takeLast 4 seq] else []) ++
    (if 5 ≤ seq.length then [takeLast 5 seq] else []) ++
    (if 6 ≤ seq.length then [takeLast 6 seq] else []))
  sortStr variants.dedup

/-! ### `build_tuple` and `generate_tuples` -/

/-- `MAX_TUPLES` from emtp.py. -/
def MAX_TUPLES : Nat := 256

/-- The five field names of the canonical tuple order. -/
inductive FieldName where
  | NAME
  | DOB
  | PHONE
  | ADDR
  | ID
deriving DecidableEq

/-- The literal label of a field name. -/
def fieldLabel : FieldName → Str
  | .NAME => lit "NAME"
  | .DOB => lit "DOB"
  | .PHONE => lit "PHONE"
  | .ADDR => lit "ADDR"
  | .ID => lit "ID"

/-- The `fields` dict argument of `build_tuple`: at most the five canonical
keys, an absent key being the empty (falsy) value. -/
structure TupleFields where
  nameV : Str
  dobV : Str
  phoneV : Str
  addrV : Str
  idV : Str
deriving DecidableEq

/-- Dict access `fields[field_name]` (with `""` for an absent key). -/
def fieldValue (f : TupleFields) : FieldName → Str
  | .NAME => f.nameV
  | .DOB => f.dobV
  | .PHONE => f.phoneV
  | .ADDR => f.addrV
  | .ID => f.idV

/-- The canonical order list `["NAME", "DOB", "PHONE", "ADDR", "ID"]`. -/
def fieldOrder : List FieldName := [.NAME, .DOB, .PHONE, .ADDR, .ID]

/-- The `parts` list of `build_tuple`: `f"{field_name}={fields[field_name]}"`
for each present (nonempty) field, in canonical order. -/
def tupleTerms (f : TupleFields) : List Str :=
  (fieldOrder.filter (fun fn => !(fieldValue f fn).isEmpty)).map
    (fun fn => fieldLabel fn ++ '=' :: fieldValue f fn)

/-- `build_tuple` from emtp.py: `"|".join(parts)`. -/
def build_tuple (f : TupleFields) : Str := joinWith ['|'] (tupleTerms f)

/-- `collapsed_initials`, computed inline in `generate_tuples`:
`"".join([given[0]] + [m[0] for m in middles if m]) + " " + family`. -/
def collapsedInitials (n : ParsedName) : Str :=
  (n.given.take 1 ++ ((n.middles.filter (fun m => !m.isEmpty)).map (fun m => m.take 1)).flatten)
    ++ ' ' :: n.family

/-- The values of the `name_variants` dict of `generate_tuples`, in
insertion order — full, given_family, initials_family, then conditionally
given_family_suffix and collapsed_initials — with values empty after
stripping removed.  (Tuple generation consumes only the values; the ID
family reads the `given_family` entry with `name.given_family` as default,
which is the same string in either case.) -/
def nameVariants (n : ParsedName) : List Str :=
  ([n.full, n.given_family, n.initials_family] ++
   (if !n.suffix.isEmpty then [n.given_family_suffix] else []) ++
   (if !n.middles.isEmpty && !n.given.isEmpty then [collapsedInitials n] else [])).filter
    (fun v => !(trim v).isEmpty)

/-- The accumulated `id_vars` of `generate_tuples`:
`list(set(concat of normalize_idno))` (the set modelled as `dedup`; only
membership is ever observable, since the tuples go into a set). -/
def idVarsOf (idnos : List Str) : List Str := (idnos.flatMap normalize_idno).dedup

/-- Family "Name + DOB". -/
def fam1 (n : ParsedName) (d : Str) : List Str :=
  (nameVariants n).map (fun nv => build_tuple (TupleFields.mk nv d [] [] []))

/-- Family "Phone + DOB": per phone, the PHONE_E164 and PHONE_LAST10
variants when present. -/
def fam2 (d : Str) (pvl : List PhoneVariants) : List Str :=
  pvl.flatMap (fun pv =>
    (match pv.e164? with
     | some v => [build_tuple (TupleFields.mk [] d v [] [])]
     | none => []) ++
    (match pv.last10? with
     | some v => [build_tuple (TupleFields.mk [] d v [] [])]
     | none => []))

/-- Family "Address + DOB": per address, the ADDR_LINE1_POSTAL and
ADDR_LINE1_CITY_STATE variants when present. -/
def fam3 (d : Str) (avl : List AddrVariants) : List Str :=
  avl.flatMap (fun av =>
    (match av.line1_postal? with
     | some v => [build_tuple (TupleFields.mk [] d [] v [])]
     | none => []) ++
    (match av.line1_city_state? with
     | some v => [build_tuple (TupleFields.mk [] d [] v [])]
     | none => []))

/-- Family "Name + DOB + Phone": name variants × {PHONE_E164,
PHONE_NATIONAL}. -/
def fam4 (n : ParsedName) (d : Str) (pvl : List PhoneVariants) : List Str :=
  (nameVariants n).flatMap (fun nv => pvl.flatMap (fun pv =>
    (match pv.e164? with
     | some v => [build_tuple (TupleFields.mk nv d v [] [])]
     | none => []) ++
    (match pv.national? with
     | some v => [build_tuple (TupleFields.mk nv d v [] [])]
     | none => [])))

/-- Family "Name + DOB + Address": name variants × {ADDR_LINE1_POSTAL,
ADDR_LINE1_CITY_STATE}. -/
def fam5 (n : ParsedName) (d : Str) (avl : List AddrVariants) : List Str :=
  (nameVariants n).flatMap (fun nv => avl.flatMap (fun av =>
    (match av.line1_postal? with
     | some v => [build_tuple (TupleFields.mk nv d [] v [])]
     | none => []) ++
    (match av.line1_city_state? with
     | some v => [build_tuple (TupleFields.mk nv d [] v [])]
     | none => [])))

/-- Family "Name + DOB + ID": `name_variants.get("given_family",
name.given_family)` is always the string `name.given_family`; the `if nv`
guard skips it when empty. -/
def fam6 (n : ParsedName) (d : Str) (idvs : List Str) : List Str :=
  if ¬n.given_family.isEmpty then
    idvs.map (fun iv => build_tuple (TupleFields.mk n.given_family d [] [] iv))
  else []

/-- Family "DOB + ID". -/
def fam7 (d : Str) (idvs : List Str) : List Str :=
  idvs.map (fun iv => build_tuple (TupleFields.mk [] d [] [] iv))

/-- Family "Phone + DOB + ID": per phone, the PHONE_LAST10 variant when
present, × every ID variant. -/
def fam8 (d : Str) (pvl : List PhoneVariants) (idvs : List Str) : List Str :=
  pvl.flatMap (fun pv =>
    match pv.last10? with
    | some v => idvs.map (fun iv => build_tuple (TupleFields.mk [] d v [] iv))
    | none => [])

/-- Every tuple added to the `tuples` set by `generate_tuples`, family by
family in source order (families 6–8 only when `id_vars` is nonempty). -/
def rawTuples (n : ParsedName) (d : Str) (phones : List Str)
    (addresses : List AddressInput) (idnos : List Str) : List Str :=
  let pvl := phones.map (fun p => phone_variants p "US")
  let avl := addresses.map address_variants
  let idvs := idVarsOf idnos
  fam1 n d ++ fam2 d pvl ++ fam3 d avl ++ fam4 n d pvl ++ fam5 n d avl ++
  (if ¬idvs.isEmpty then fam6 n d idvs ++ fam7 d idvs ++ fam8 d pvl idvs else [])

/-- The deduplicated `tuples` set, as a list. -/
def tupleSet (n : ParsedName) (d : Str) (phones : List Str)
    (addresses : List AddressInput) (idnos : List Str) : List Str :=
  (rawTuples n d phones addresses idnos).dedup

/-- `sorted(tuples)`. -/
def sortedTupleSet (n : ParsedName) (d : Str) (phones : List Str)
    (addresses : List AddressInput) (idnos : List Str) : List Str :=
  sortStr (tupleSet n d phones addresses idnos)

/-- `generate_tuples` from emtp.py: `sorted(tuples)[:MAX_TUPLES]`. -/
def generate_tuples (n : ParsedName) (d : Str) (phones : List Str)
    (addresses : List AddressInput) (idnos : List Str) : List Str :=
  (sortedTupleSet n d phones addresses idnos).take MAX_TUPLES

/-! ### `process_record` -/

/-- The result dict of `process_record` (the `normalized_name` sub-dict
inlined).  Token generation is elided: no claim concerns it, and with no
keys supplied the Python function adds no `tokens` entry. -/
structure RecordResult where
  given : Str
  middles : List Str
  family : Str
  suffix : Str
  full : Str
  given_family : Str
  initials_family : Str
  normalized_dob : Str
  tuples : List Str
  tuple_count : Nat
deriving DecidableEq

/-- `process_record` from emtp.py: normalize the name and date of birth,
generate tuples, assemble the result.  A `ValueError` raised by
`normalize_dob` propagates, aborting the record with no output. -/
def process_record (full_name dob : Str) (phones : List Str)
    (addresses : List AddressInput) (idnos : List Str) : Except DobError RecordResult :=
  let pn := normalize_name full_name
  match normalize_dob dob with
  | .error e => .error e
  | .ok nd =>
    let tups := generate_tuples pn nd phones addresses idnos
    .ok (RecordResult.mk pn.given pn.middles pn.family pn.suffix pn.full pn.given_family
      pn.initials_family nd tups tups.length)

/-- The tuple list of a record result (empty for an aborted record). -/
instance exceptDecEq {ε α : Type} [DecidableEq ε] [DecidableEq α] :
    DecidableEq (Except ε α) := fun a b =>
  match a, b with
  | .ok x, .ok y =>
    if h : x = y then isTrue (by rw [h]) else isFalse (by intro hh; cases hh; exact h rfl)
  | .error e, .error f =>
    if h : e = f then isTrue (by rw [h]) else isFalse (by intro hh; cases hh; exact h rfl)
  | .ok _, .error _ => isFalse (by intro hh; cases hh)
  | .error _, .ok _ => isFalse (by intro hh; cases hh)

def resultTuples : Except DobError RecordResult → List Str
  | .ok r => r.tuples
  | .error _ => []

/-! ### Claims C9, C5, C4 -/

/-- Claim C9: processing name "MR. JRR Tolkien" with date of birth
"1892-01-03" yields a tuple list containing
"NAME=JRR TOLKIEN|DOB=1892-01-03" (honorific MR dropped, given_family
"JRR TOLKIEN" joined with the date of birth). -/
theorem c9_tolkien_tuple :
    lit "NAME=JRR TOLKIEN|DOB=1892-01-03" ∈
      resultTuples (process_record (lit "MR. JRR Tolkien") (lit "1892-01-03") [] [] []) := by
  decide

/-- Claim C5: the tuple list is the sorted deduplicated tuple set truncated
to its first `MAX_TUPLES = 256` entries: it never exceeds 256 entries; the
sorted set is duplicate-free, `lexLe`-sorted, and has exactly the members
of the generated tuples; and when the set fits the cap the output is the
whole sorted set. -/
theorem c5_cap (n : ParsedName) (d : Str) (phones : List Str)
    (addresses : List AddressInput) (idnos : List Str) :
    (generate_tuples n d phones addresses idnos).length ≤ MAX_TUPLES ∧
    generate_tuples n d phones addresses idnos =
      (sortedTupleSet n d phones addresses idnos).take MAX_TUPLES ∧
    (sortedTupleSet n d phones addresses idnos).Pairwise LexLeP ∧
    (sortedTupleSet n d phones addresses idnos).Nodup ∧
    (∀ t, t ∈ sortedTupleSet n d phones addresses idnos ↔
      t ∈ rawTuples n d phones addresses idnos) ∧
    ((sortedTupleSet n d phones addresses idnos).length ≤ MAX_TUPLES →
      generate_tuples n d phones addresses idnos = sortedTupleSet n d phones addresses idnos) :=
  ⟨(sortedTupleSet n d phones addresses idnos).length_take_le MAX_TUPLES,
   rfl,
   sorted_sortStr _,
   nodup_sortStr (List.nodup_dedup _),
   fun _ => mem_sortStr.trans List.mem_dedup,
   fun h => List.take_of_length_le h⟩

/-- Witness for C5's cap-fitting case at a concrete record. -/
theorem c5_witness :
    generate_tuples (normalize_name (lit "MR. JRR Tolkien")) (lit "1892-01-03") [] [] [] =
      sortedTupleSet (normalize_name (lit "MR. JRR Tolkien")) (lit "1892-01-03") [] [] [] :=
  (c5_cap (normalize_name (lit "MR. JRR Tolkien")) (lit "1892-01-03") [] [] []).2.2.2.2.2
    (by decide)

/-- Claim C4 (amended): `normalize_dob` first strips leading and trailing
whitespace; it raises if and only if the stripped string is not exactly
`YYYY-MM-DD` or has year outside [1800, 2100], month outside [1, 12] or day
outside [1, 31] (so day 31 of any month passes), and an error inside
record processing yields no record output.  The iff is proved for every
realization `ws`/`dig`/`dv` of the three external Unicode tables the
function consults — the whitespace class of `str.strip()`, the regex class
`\d`, and the digit values taken by `int()` — so it holds in particular at
the real tables, not merely at their ASCII parts. -/
theorem c4_theorem :
    (∀ (ws dig : Char → Bool) (dv : Char → Nat) (s : Str),
      (∃ e, normalize_dobWith ws dig dv s = .error e) ↔
        ¬ DobValidWith dig dv (trimBy ws s)) ∧
    (∀ (fn s : Str) (ph : List Str) (ad : List AddressInput) (idn : List Str) (e : DobError),
      normalize_dob s = .error e → process_record fn s ph ad idn = .error e) := by
  refine ⟨normalize_dobWith_error_iff, ?_⟩
  intro fn s ph ad idn e he
  unfold process_record
  rw [he]

/-- Witness for C4 at a concrete record: an out-of-range month aborts
`process_record` with no output. -/
theorem c4_witness :
    process_record (lit "JO DOE") (lit "1892-13-01") [] [] [] =
      Except.error DobError.badMonth :=
  c4_theorem.2 (lit "JO DOE") (lit "1892-13-01") [] [] [] DobError.badMonth (by decide)

/-- Claim C4, counterexample to the claim as stated: " 1892-01-03" (leading
space) is not exactly of the `YYYY-MM-DD` form, so the claim requires an
error, but `normalize_dob` strips first and accepts it. -/
theorem c4_counterexample :
    dobPatternB (lit " 1892-01-03") = false ∧
    normalize_dob (lit " 1892-01-03") = Except.ok (lit "1892-01-03") := by
  decide

/-! ### Parsing field names back out of a tuple string (for C6 and C8).
A tuple string "contains field F" when scanning its pipe-separated
segments finds one that starts with "F=".  Values never contain `=`
(normalized strings, digit strings, phone strings), which is what makes
this scan unambiguous; the lemmas below prove it. -/

/-- Pipe-separated segments of a tuple string. -/
def splitPipe (t : Str) : List Str := splitOnChar '|' t

/-- The field name a segment announces, if any: the segment starts with
`"FIELD="` for one of the five canonical fields. -/
def segField (seg : Str) : Option FieldName :=
  if ['N', 'A', 'M', 'E', '='] <+: seg then some .NAME
  else if ['D', 'O', 'B', '='] <+: seg then some .DOB
  else if ['P', 'H', 'O', 'N', 'E', '='] <+: seg then some .PHONE
  else if ['A', 'D', 'D', 'R', '='] <+: seg then some .ADDR
  else if ['I', 'D', '='] <+: seg then some .ID
  else none

/-- The field names a tuple string contains, in order of appearance. -/
def fieldNamesOf (t : Str) : List FieldName := (splitPipe t).filterMap segField

theorem splitOnChar_ne_nil (sep : Char) : ∀ l : Str, splitOnChar sep l ≠ []
  | [] => by simp [splitOnChar]
  | c :: cs => by
    unfold splitOnChar
    split
    · simp
    · split <;> simp

theorem splitOnChar_cons (sep c : Char) (cs : Str) :
    splitOnChar sep (c :: cs) = if c = sep then [] :: splitOnChar sep cs
      else match splitOnChar sep cs with | [] => [[c]] | s :: ss => (c :: s) :: ss := rfl

theorem splitOnChar_append_sep (sep : Char) : ∀ x y : Str,
    splitOnChar sep (x ++ sep :: y) = splitOnChar sep x ++ splitOnChar sep y
  | [], y => by simp [splitOnChar]
  | c :: cs, y => by
    show splitOnChar sep (c :: (cs ++ sep :: y)) = _
    rw [splitOnChar_cons sep c (cs ++ sep :: y), splitOnChar_cons sep c cs,
      splitOnChar_append_sep sep cs y]
    by_cases hc : c = sep
    · rw [if_pos hc, if_pos hc]
      rfl
    · rw [if_neg hc, if_neg hc]
      rcases hcs : splitOnChar sep cs with _ | ⟨s, ss⟩
      · exact absurd hcs (splitOnChar_ne_nil sep cs)
      · rfl

theorem splitOnChar_append_no_sep (sep : Char) : ∀ (x y : Str), (∀ c ∈ x, c ≠ sep) →
    ∀ hd tl, splitOnChar sep y = hd :: tl → splitOnChar sep (x ++ y) = (x ++ hd) :: tl
  | [], y, _, hd, tl, h => by simpa using h
  | c :: cs, y, hx, hd, tl, h => by
    show splitOnChar sep (c :: (cs ++ y)) = _
    rw [splitOnChar_cons sep c (cs ++ y), if_neg (hx c (List.mem_cons_self _ _)),
      splitOnChar_append_no_sep sep cs y (fun d hdm => hx d (List.mem_cons_of_mem _ hdm)) hd tl h]
    rfl

theorem mem_splitOnChar_sub (sep : Char) : ∀ (l : Str) (seg : Str), seg ∈ splitOnChar sep l →
    ∀ c ∈ seg, c ∈ l
  | [], seg, h, c, hc => by
    simp only [splitOnChar, List.mem_singleton] at h
    subst h
    cases hc
  | x :: xs, seg, h, c, hc => by
    unfold splitOnChar at h
    by_cases hx : x = sep
    · rw [if_pos hx] at h
      rcases List.mem_cons.mp h with h1 | h1
      · subst h1; cases hc
      · exact List.mem_cons_of_mem _ (mem_splitOnChar_sub sep xs seg h1 c hc)
    · rw [if_neg hx] at h
      rcases hcs : splitOnChar sep xs with _ | ⟨s, ss⟩
      · exact absurd hcs (splitOnChar_ne_nil sep xs)
      · rw [hcs] at h
        rcases List.mem_cons.mp h with h1 | h1
        · subst h1
          rcases List.mem_cons.mp hc with h2 | h2
          · subst h2; exact List.mem_cons_self _ _
          · exact List.mem_cons_of_mem _
              (mem_splitOnChar_sub sep xs s (by rw [hcs]; exact List.mem_cons_self _ _) c h2)
        · exact List.mem_cons_of_mem _
            (mem_splitOnChar_sub sep xs seg (by rw [hcs]; exact List.mem_cons_of_mem _ h1) c hc)

/-- A value string free of `=` characters. -/
def NoEq (v : Str) : Prop := ∀ c ∈ v, c ≠ '='

theorem segField_none {seg : Str} (h : NoEq seg) : segField seg = none := by
  have hmem : ∀ pat : Str, '=' ∈ pat → ¬ pat <+: seg := by
    intro pat hp hpre
    exact h '=' (hpre.sublist.subset hp) rfl
  unfold segField
  rw [if_neg (hmem _ (by decide)), if_neg (hmem _ (by decide)), if_neg (hmem _ (by decide)),
    if_neg (hmem _ (by decide)), if_neg (hmem _ (by decide))]

theorem segPre_ne {a b : Char} {l1 l2 : Str} (hne : a ≠ b) : ¬ (a :: l1 <+: b :: l2) :=
  fun h => hne (List.cons_prefix_cons.mp h).1

theorem segField_term (fn : FieldName) (v : Str) :
    segField (fieldLabel fn ++ '=' :: v) = some fn := by
  cases fn
  case NAME =>
    show segField ('N' :: 'A' :: 'M' :: 'E' :: '=' :: v) = _
    unfold segField
    rw [if_pos ⟨v, rfl⟩]
  case DOB =>
    show segField ('D' :: 'O' :: 'B' :: '=' :: v) = _
    unfold segField
    rw [if_neg (segPre_ne (by decide)), if_pos ⟨v, rfl⟩]
  case PHONE =>
    show segField ('P' :: 'H' :: 'O' :: 'N' :: 'E' :: '=' :: v) = _
    unfold segField
    rw [if_neg (segPre_ne (by decide)), if_neg (segPre_ne (by decide)), if_pos ⟨v, rfl⟩]
  case ADDR =>
    show segField ('A' :: 'D' :: 'D' :: 'R' :: '=' :: v) = _
    unfold segField
    rw [if_neg (segPre_ne (by decide)), if_neg (segPre_ne (by decide)),
      if_neg (segPre_ne (by decide)), if_pos ⟨v, rfl⟩]
  case ID =>
    show segField ('I' :: 'D' :: '=' :: v) = _
    unfold segField
    rw [if_neg (segPre_ne (by decide)), if_neg (segPre_ne (by decide)),
      if_neg (segPre_ne (by decide)), if_neg (segPre_ne (by decide)), if_pos ⟨v, rfl⟩]

theorem filterMap_term (fn : FieldName) (v : Str) (hv : NoEq v) :
    (splitPipe (fieldLabel fn ++ '=' :: v)).filterMap segField = [fn] := by
  rcases hsp : splitOnChar '|' v with _ | ⟨hd, tl⟩
  · exact absurd hsp (splitOnChar_ne_nil '|' v)
  · have hx : ∀ c ∈ fieldLabel fn ++ ['='], c ≠ '|' := by cases fn <;> decide
    have heq : splitPipe (fieldLabel fn ++ '=' :: v) = ((fieldLabel fn ++ ['=']) ++ hd) :: tl := by
      show splitOnChar '|' _ = _
      rw [show fieldLabel fn ++ '=' :: v = (fieldLabel fn ++ ['=']) ++ v from by simp]
      exact splitOnChar_append_no_sep '|' _ v hx hd tl hsp
    rw [heq]
    have h1 : segField ((fieldLabel fn ++ ['=']) ++ hd) = some fn := by
      rw [show (fieldLabel fn ++ ['=']) ++ hd = fieldLabel fn ++ '=' :: hd from by simp]
      exact segField_term fn hd
    rw [List.filterMap_cons_some h1]
    have h2 : ∀ seg ∈ tl, segField seg = none := by
      intro seg hseg
      apply segField_none
      intro c hcseg
      exact hv c (mem_splitOnChar_sub '|' v seg
        (by rw [hsp]; exact List.mem_cons_of_mem _ hseg) c hcseg)
    rw [List.filterMap_eq_nil_iff.mpr h2]

theorem fieldNamesOf_joined : ∀ (terms : List (FieldName × Str)), (∀ p ∈ terms, NoEq p.2) →
    (splitPipe (joinWith ['|'] (terms.map (fun p => fieldLabel p.1 ++ '=' :: p.2)))).filterMap
      segField = terms.map (fun p => p.1)
  | [], _ => by decide
  | [p], hp => by
    simp only [List.map_cons, List.map_nil, joinWith]
    exact filterMap_term p.1 p.2 (hp p (List.mem_cons_self _ _))
  | p :: q :: rest, hp => by
    have hjoin : joinWith ['|'] ((p :: q :: rest).map (fun r => fieldLabel r.1 ++ '=' :: r.2)) =
        (fieldLabel p.1 ++ '=' :: p.2) ++
          '|' :: joinWith ['|'] ((q :: rest).map (fun r => fieldLabel r.1 ++ '=' :: r.2)) := by
      simp [joinWith]
    show (splitPipe _).filterMap segField = _
    rw [hjoin]
    show (splitOnChar '|' _).filterMap segField = _
    rw [splitOnChar_append_sep '|' _ _, List.filterMap_append]
    rw [show (splitOnChar '|' (fieldLabel p.1 ++ '=' :: p.2)).filterMap segField = [p.1] from
      filterMap_term p.1 p.2 (hp p (List.mem_cons_self _ _))]
    rw [show (splitOnChar '|'
        (joinWith ['|'] ((q :: rest).map (fun r => fieldLabel r.1 ++ '=' :: r.2)))).filterMap
        segField = (q :: rest).map (fun r => r.1) from
      fieldNamesOf_joined (q :: rest) (fun r hr => hp r (List.mem_cons_of_mem _ hr))]
    rfl

theorem fieldNamesOf_build_tuple (f : TupleFields) (h : ∀ fn, NoEq (fieldValue f fn)) :
    fieldNamesOf (build_tuple f) = fieldOrder.filter (fun fn => !(fieldValue f fn).isEmpty) := by
  have key := fieldNamesOf_joined
    ((fieldOrder.filter (fun fn => !(fieldValue f fn).isEmpty)).map
      (fun fn => (fn, fieldValue f fn)))
    (by
      intro p hp
      rcases List.mem_map.mp hp with ⟨fn, -, hfn⟩
      rw [← hfn]
      exact h fn)
  rw [List.map_map, List.map_map] at key
  show (splitPipe (joinWith ['|'] (tupleTerms f))).filterMap segField = _
  unfold tupleTerms
  have hcomp : ((fun p : FieldName × Str => fieldLabel p.1 ++ '=' :: p.2) ∘
      (fun fn => (fn, fieldValue f fn))) = fun fn => fieldLabel fn ++ '=' :: fieldValue f fn :=
    rfl
  rw [hcomp] at key
  rw [key]
  exact List.map_id _

/-! ### Character classes of the values fed into tuples.
Every value placed in a tuple field is free of `=`; these lemmas establish
it pool by pool. -/

theorem mem_splitWSAux_sub : ∀ (s acc : Str) (tok : Str), tok ∈ splitWSAux s acc →
    ∀ c ∈ tok, c ∈ s ∨ c ∈ acc
  | [], acc, tok, h, c, hc => by
    unfold splitWSAux at h
    split at h
    · cases h
    · rw [List.mem_singleton.mp h] at hc
      exact Or.inr (List.mem_reverse.mp hc)
  | x :: xs, acc, tok, h, c, hc => by
    unfold splitWSAux at h
    split at h
    · split at h
      · rcases mem_splitWSAux_sub xs [] tok h c hc with h1 | h1
        · exact Or.inl (List.mem_cons_of_mem _ h1)
        · cases h1
      · rcases List.mem_cons.mp h with h1 | h1
        · rw [h1] at hc
          exact Or.inr (List.mem_reverse.mp hc)
        · rcases mem_splitWSAux_sub xs [] tok h1 c hc with h2 | h2
          · exact Or.inl (List.mem_cons_of_mem _ h2)
          · cases h2
    · rcases mem_splitWSAux_sub xs (x :: acc) tok h c hc with h1 | h1
      · exact Or.inl (List.mem_cons_of_mem _ h1)
      · rcases List.mem_cons.mp h1 with h2 | h2
        · exact Or.inl (h2 ▸ List.mem_cons_self _ _)
        · exact Or.inr h2

theorem splitWS_mem_sub {s tok : Str} (h : tok ∈ splitWS s) : ∀ c ∈ tok, c ∈ s := by
  intro c hc
  rcases mem_splitWSAux_sub s [] tok h c hc with h1 | h1
  · exact h1
  · cases h1

theorem lookup_val_mem : ∀ {l : List (Str × Str)} {k v : Str}, l.lookup k = some v →
    ∃ k', (k', v) ∈ l
  | [], _, _, h => by cases h
  | (k1, v1) :: rest, k, v, h => by
    unfold List.lookup at h
    split at h
    · exact ⟨k1, by rw [← Option.some.injEq v1 v |>.mp h]; exact List.mem_cons_self _ _⟩
    · obtain ⟨k', hk⟩ := lookup_val_mem h
      exact ⟨k', List.mem_cons_of_mem _ hk⟩

theorem suffix_map_vals : ∀ p ∈ SUFFIX_MAP, ∀ c ∈ p.2, normChar c = true := by decide

theorem dropHonorific_sub {toks : List Str} : ∀ tok ∈ dropHonorific toks, tok ∈ toks := by
  intro tok h
  rcases toks with _ | ⟨t0, rest⟩
  · exact h
  · unfold dropHonorific at h
    dsimp only at h
    split at h
    · exact List.mem_cons_of_mem _ h
    · exact h

theorem extractSuffix_snd_sub {toks : List Str} : ∀ tok ∈ (extractSuffix toks).2, tok ∈ toks := by
  intro tok h
  unfold extractSuffix at h
  split at h
  · split at h
    · split at h
      · exact (List.dropLast_sublist toks).subset h
      · exact h
    · exact h
  · exact h

theorem extractSuffix_fst (toks : List Str) :
    (extractSuffix toks).1 = [] ∨ ∃ k, (k, (extractSuffix toks).1) ∈ SUFFIX_MAP := by
  unfold extractSuffix
  split
  · split
    · split
      · rename_i hsf
        exact Or.inr (lookup_val_mem hsf)
      · exact Or.inl rfl
    · exact Or.inl rfl
  · exact Or.inl rfl

theorem assignParts_chars {toks : List Str} {sfx : Str}
    (ht : ∀ tok ∈ toks, ∀ c ∈ tok, normChar c = true)
    (hs : ∀ c ∈ sfx, normChar c = true) :
    (∀ c ∈ (assignParts toks sfx).given, normChar c = true) ∧
    (∀ m ∈ (assignParts toks sfx).middles, ∀ c ∈ m, normChar c = true) ∧
    (∀ c ∈ (assignParts toks sfx).family, normChar c = true) ∧
    (∀ c ∈ (assignParts toks sfx).suffix, normChar c = true) := by
  rcases toks with _ | ⟨t, _ | ⟨u, us⟩⟩
  · exact ⟨fun c hc => absurd hc (List.not_mem_nil c),
      fun m hm => absurd hm (List.not_mem_nil m),
      fun c hc => absurd hc (List.not_mem_nil c), hs⟩
  · exact ⟨fun c hc => ht t (List.mem_cons_self _ _) c hc,
      fun m hm => absurd hm (List.not_mem_nil m),
      fun c hc => ht t (List.mem_cons_self _ _) c hc, hs⟩
  · refine ⟨fun c hc => ht t (List.mem_cons_self _ _) c hc, ?_, ?_, hs⟩
    · intro m hm
      exact ht m (List.mem_cons_of_mem _ ((List.dropLast_sublist (u :: us)).subset hm))
    · intro c hc
      exact ht ((u :: us).getLast (List.cons_ne_nil u us))
        (List.mem_cons_of_mem _ (List.getLast_mem _)) c hc

theorem normalize_name_field_chars (s : Str) :
    (∀ c ∈ (normalize_name s).given, normChar c = true) ∧
    (∀ m ∈ (normalize_name s).middles, ∀ c ∈ m, normChar c = true) ∧
    (∀ c ∈ (normalize_name s).family, normChar c = true) ∧
    (∀ c ∈ (normalize_name s).suffix, normChar c = true) := by
  have htok : ∀ tok ∈ splitWS (normalize_string s), ∀ c ∈ tok, normChar c = true :=
    fun tok ht c hc => mem_normalizeStringWith (splitWS_mem_sub ht c hc)
  unfold normalize_name
  rcases hsp : splitWS (normalize_string s) with _ | ⟨t0, rest⟩
  · exact ⟨fun c hc => absurd hc (List.not_mem_nil c),
      fun m hm => absurd hm (List.not_mem_nil m),
      fun c hc => absurd hc (List.not_mem_nil c),
      fun c hc => absurd hc (List.not_mem_nil c)⟩
  · rw [hsp] at htok
    have h2 : ∀ tok ∈ dropHonorific (t0 :: rest), ∀ c ∈ tok, normChar c = true :=
      fun tok h => htok tok (dropHonorific_sub tok h)
    have h3 : ∀ tok ∈ (extractSuffix (dropHonorific (t0 :: rest))).2, ∀ c ∈ tok,
        normChar c = true :=
      fun tok h => h2 tok (extractSuffix_snd_sub tok h)
    have h4 : ∀ c ∈ (extractSuffix (dropHonorific (t0 :: rest))).1, normChar c = true := by
      rcases extractSuffix_fst (dropHonorific (t0 :: rest)) with hnil | ⟨k, hk⟩
      · rw [hnil]
        exact fun c hc => absurd hc (List.not_mem_nil c)
      · exact fun c hc => suffix_map_vals _ hk c hc
    exact assignParts_chars h3 h4

theorem mem_joinWith_sub (sep : Str) : ∀ (parts : List Str) (c : Char),
    c ∈ joinWith sep parts → (∃ p ∈ parts, c ∈ p) ∨ c ∈ sep
  | [], c, h => absurd h (List.not_mem_nil c)
  | [x], c, h => Or.inl ⟨x, List.mem_cons_self _ _, h⟩
  | x :: y :: ys, c, h => by
    simp only [joinWith] at h
    rcases List.mem_append.mp h with h1 | h1
    · rcases List.mem_append.mp h1 with h2 | h2
      · exact Or.inl ⟨x, List.mem_cons_self _ _, h2⟩
      · exact Or.inr h2
    · rcases mem_joinWith_sub sep (y :: ys) c h1 with ⟨p, hp, hcp⟩ | h2
      · exact Or.inl ⟨p, List.mem_cons_of_mem _ hp, hcp⟩
      · exact Or.inr h2

theorem given_family_chars {n : ParsedName} (hg : ∀ c ∈ n.given, normChar c = true)
    (hf : ∀ c ∈ n.family, normChar c = true) : ∀ c ∈ n.given_family, normChar c = true := by
  intro c hc
  rcases List.mem_append.mp (mem_trim hc) with h1 | h1
  · rcases List.mem_append.mp h1 with h2 | h2
    · exact hg c h2
    · rw [List.mem_singleton.mp h2]
      exact space_normChar
  · exact hf c h1

theorem variant_pool_chars (s : Str) :
    ∀ v ∈ nameVariants (normalize_name s), ∀ c ∈ v, normChar c = true := by
  obtain ⟨hg, hm, hf, hs⟩ := normalize_name_field_chars s
  set n := normalize_name s
  have hfull : ∀ c ∈ n.full, normChar c = true := by
    intro c hc
    unfold ParsedName.full at hc
    rcases mem_joinWith_sub [' '] _ c hc with ⟨p, hp, hcp⟩ | hcs
    · have hp' := List.mem_of_mem_filter hp
      rcases List.mem_append.mp hp' with h1 | h1
      · rcases List.mem_append.mp h1 with h2 | h2
        · rw [List.mem_singleton.mp h2] at hcp
          exact hg c hcp
        · exact hm p h2 c hcp
      · rw [List.mem_singleton.mp h1] at hcp
        exact hf c hcp
    · rw [List.mem_singleton.mp hcs]
      exact space_normChar
  have hgf : ∀ c ∈ n.given_family, normChar c = true := given_family_chars hg hf
  have hinit : ∀ c ∈ n.initials_family, normChar c = true := by
    intro c hc
    unfold ParsedName.initials_family at hc
    rcases mem_joinWith_sub [' '] _ c (mem_trim hc) with ⟨p, hp, hcp⟩ | hcs
    · rcases List.mem_append.mp hp with h1 | h1
      · rcases List.mem_append.mp h1 with h2 | h2
        · split at h2
          · rw [List.mem_singleton.mp h2] at hcp
            exact hg c (List.take_subset 1 _ hcp)
          · cases h2
        · rcases List.mem_map.mp h2 with ⟨m, hmem, hmp⟩
          rw [← hmp] at hcp
          exact hm m (List.mem_of_mem_filter hmem) c (List.take_subset 1 _ hcp)
      · rw [List.mem_singleton.mp h1] at hcp
        exact hf c hcp
    · rw [List.mem_singleton.mp hcs]
      exact space_normChar
  have hgfs : ∀ c ∈ n.given_family_suffix, normChar c = true := by
    intro c hc
    unfold ParsedName.given_family_suffix at hc
    split at hc
    · rcases List.mem_append.mp (mem_trim hc) with h1 | h1
      · rcases List.mem_append.mp h1 with h2 | h2
        · rcases List.mem_append.mp h2 with h3 | h3
          · rcases List.mem_append.mp h3 with h4 | h4
            · exact hg c h4
            · rw [List.mem_singleton.mp h4]
              exact space_normChar
          · exact hf c h3
        · rw [List.mem_singleton.mp h2]
          exact space_normChar
      · exact hs c h1
    · exact hgf c hc
  have hcol : ∀ c ∈ collapsedInitials n, normChar c = true := by
    intro c hc
    unfold collapsedInitials at hc
    rcases List.mem_append.mp hc with h1 | h1
    · rcases List.mem_append.mp h1 with h2 | h2
      · exact hg c (List.take_subset 1 _ h2)
      · rcases List.mem_flatten.mp h2 with ⟨piece, hpm, hcp⟩
        rcases List.mem_map.mp hpm with ⟨m, hmem, hmp⟩
        rw [← hmp] at hcp
        exact hm m (List.mem_of_mem_filter hmem) c (List.take_subset 1 _ hcp)
    · rcases List.mem_cons.mp h1 with h2 | h2
      · rw [h2]
        exact space_normChar
      · exact hf c h2
  intro v hv
  have hv' := List.mem_of_mem_filter hv
  rcases List.mem_append.mp hv' with h1 | h1
  · rcases List.mem_append.mp h1 with h2 | h2
    · rcases List.mem_cons.mp h2 with h3 | h3
      · rw [h3]; exact hfull
      · rcases List.mem_cons.mp h3 with h4 | h4
        · rw [h4]; exact hgf
        · rw [List.mem_singleton.mp h4]; exact hinit
    · split at h2
      · rw [List.mem_singleton.mp h2]; exact hgfs
      · cases h2
  · split at h1
    · rw [List.mem_singleton.mp h1]; exact hcol
    · cases h1

theorem NoEq_of_normChar {v : Str} (h : ∀ c ∈ v, normChar c = true) : NoEq v := by
  intro c hc he
  have := h c hc
  rw [he] at this
  exact absurd this (by decide)

theorem noEq_append {x y : Str} (hx : NoEq x) (hy : NoEq y) : NoEq (x ++ y) := by
  intro c hc
  rcases List.mem_append.mp hc with h | h
  · exact hx c h
  · exact hy c h

theorem noEq_pipe : NoEq ['|'] := by
  intro c hc
  rw [List.mem_singleton.mp hc]
  decide

theorem noEq_nil : NoEq [] := fun c hc => absurd hc (List.not_mem_nil c)

theorem noEq_of_digits {v : Str} (h : ∀ c ∈ v, isDigitChar c = true) : NoEq v := by
  intro c hc he
  have hd := h c hc
  rw [he] at hd
  exact absurd hd (by decide)

theorem normalize_phone_chars (p : Str) (dc : String) :
    ∀ c ∈ normalize_phone p dc, c = '+' ∨ isDigitChar c = true := by
  intro c hc
  simp only [normalize_phone] at hc
  split at hc
  · cases hc
  · split at hc
    · rcases List.mem_cons.mp hc with h1 | h1
      · exact Or.inl h1
      · exact Or.inr (List.mem_filter.mp h1).2
    · split at hc
      · rcases List.mem_cons.mp hc with h1 | h1
        · exact Or.inl h1
        · rcases List.mem_cons.mp h1 with h2 | h2
          · exact Or.inr (by rw [h2]; decide)
          · exact Or.inr (List.mem_filter.mp h2).2
      · split at hc
        · rcases List.mem_cons.mp hc with h1 | h1
          · exact Or.inl h1
          · exact Or.inr (List.mem_filter.mp h1).2
        · exact Or.inr (List.mem_filter.mp hc).2

theorem noEq_of_phone_chars {v : Str} (h : ∀ c ∈ v, c = '+' ∨ isDigitChar c = true) :
    NoEq v := by
  intro c hc he
  rcases h c hc with h1 | h1
  · rw [he] at h1; exact absurd h1 (by decide)
  · rw [he] at h1; exact absurd h1 (by decide)

theorem phoneVariants_noEq (p : Str) (dc : String) :
    (∀ v, (phone_variants p dc).e164? = some v → NoEq v) ∧
    (∀ v, (phone_variants p dc).national? = some v → NoEq v) ∧
    (∀ v, (phone_variants p dc).last10? = some v → NoEq v) := by
  have hph := normalize_phone_chars p dc
  have hdg : ∀ c ∈ p.filter isDigitChar, c = '+' ∨ isDigitChar c = true :=
    fun c hc => Or.inr (List.mem_filter.mp hc).2
  refine ⟨?_, ?_, ?_⟩
  · intro v hv
    simp only [phone_variants] at hv
    split at hv
    · rw [← Option.some.injEq _ _ |>.mp hv]
      exact noEq_of_phone_chars hph
    · cases hv
  · intro v hv
    simp only [phone_variants] at hv
    split at hv
    · rw [← Option.some.injEq _ _ |>.mp hv]
      exact noEq_of_phone_chars (fun c hc => hph c (List.drop_subset 2 _ hc))
    · split at hv
      · rw [← Option.some.injEq _ _ |>.mp hv]
        exact noEq_of_phone_chars hdg
      · cases hv
  · intro v hv
    simp only [phone_variants] at hv
    split at hv
    · rw [← Option.some.injEq _ _ |>.mp hv]
      exact noEq_of_phone_chars (fun c hc => hdg c (List.drop_subset _ _ hc))
    · cases hv

theorem replaceTok_chars {lf sf acc : Str} (hsf : ∀ c ∈ sf, normChar c = true)
    (hacc : ∀ c ∈ acc, normChar c = true) : ∀ c ∈ replaceTok lf sf acc, normChar c = true := by
  intro c hc
  unfold replaceTok at hc
  rcases mem_joinWith_sub [' '] _ c hc with ⟨t', ht', hct⟩ | hcs
  · rcases List.mem_map.mp ht' with ⟨t, ht, htp⟩
    rw [← htp] at hct
    by_cases he : t = lf
    · rw [if_pos he] at hct
      exact hsf c hct
    · rw [if_neg he] at hct
      exact hacc c (splitWS_mem_sub ht c hct)
  · rw [List.mem_singleton.mp hcs]
    exact space_normChar

theorem abbrev_vals : ∀ pr ∈ ADDR_ABBREVS, ∀ c ∈ pr.2, normChar c = true := by decide

theorem foldl_replaceTok_chars : ∀ (l : List (Str × Str)) (acc : Str),
    (∀ pr ∈ l, ∀ c ∈ pr.2, normChar c = true) → (∀ c ∈ acc, normChar c = true) →
    ∀ c ∈ l.foldl (fun a pr => replaceTok pr.1 pr.2 a) acc, normChar c = true
  | [], _, _, hacc => hacc
  | pr :: rest, acc, hl, hacc => by
    simp only [List.foldl_cons]
    exact foldl_replaceTok_chars rest _ (fun q hq => hl q (List.mem_cons_of_mem _ hq))
      (replaceTok_chars (hl pr (List.mem_cons_self _ _)) hacc)

theorem addr_component_chars (s : Str) :
    ∀ c ∈ normalize_address_component s, normChar c = true := by
  unfold normalize_address_component
  exact foldl_replaceTok_chars ADDR_ABBREVS _ abbrev_vals
    (fun c hc => mem_normalizeStringWith hc)

theorem noUnit_chars {line1 : Str} (h : ∀ c ∈ line1, normChar c = true) :
    ∀ c ∈ noUnitOf line1, normChar c = true := by
  intro c hc
  unfold noUnitOf at hc
  rcases mem_joinWith_sub [' '] _ c hc with ⟨t', ht', hct⟩ | hcs
  · exact h c (splitWS_mem_sub ((List.takeWhile_sublist _).subset ht') c hct)
  · rw [List.mem_singleton.mp hcs]
    exact space_normChar

theorem addrVariants_noEq (a : AddressInput) :
    (∀ v, (address_variants a).line1_postal? = some v → NoEq v) ∧
    (∀ v, (address_variants a).line1_city_state? = some v → NoEq v) ∧
    (∀ v, (address_variants a).line1_city_state_postal? = some v → NoEq v) ∧
    (∀ v, (address_variants a).no_unit? = some v → NoEq v) := by
  have h1 : NoEq (normalize_address_component (parse_address a).line1) :=
    NoEq_of_normChar (addr_component_chars _)
  have h2 : NoEq (normalize_string (parse_address a).city) :=
    NoEq_of_normChar (fun c hc => mem_normalizeStringWith hc)
  have h3 : NoEq (normalize_string (parse_address a).state) :=
    NoEq_of_normChar (fun c hc => mem_normalizeStringWith hc)
  have h4 : NoEq (normalize_string (parse_address a).postal_code) :=
    NoEq_of_normChar (fun c hc => mem_normalizeStringWith hc)
  have h5 : NoEq (noUnitOf (normalize_address_component (parse_address a).line1)) :=
    NoEq_of_normChar (noUnit_chars (addr_component_chars _))
  refine ⟨?_, ?_, ?_, ?_⟩
  · intro v hv
    simp only [address_variants] at hv
    split at hv
    · rw [← Option.some.injEq _ _ |>.mp hv]
      exact noEq_append (noEq_append h1 noEq_pipe) h4
    · cases hv
  · intro v hv
    simp only [address_variants] at hv
    split at hv
    · rw [← Option.some.injEq _ _ |>.mp hv]
      exact noEq_append (noEq_append (noEq_append (noEq_append h1 noEq_pipe) h2) noEq_pipe) h3
    · cases hv
  · intro v hv
    simp only [address_variants] at hv
    split at hv
    · rw [← Option.some.injEq _ _ |>.mp hv]
      exact noEq_append (noEq_append (noEq_append (noEq_append (noEq_append
        (noEq_append h1 noEq_pipe) h2) noEq_pipe) h3) noEq_pipe) h4
    · cases hv
  · intro v hv
    simp only [address_variants] at hv
    split at hv
    · rw [← Option.some.injEq _ _ |>.mp hv]
      exact h5
    · cases hv

theorem dobPatternB_chars {d : Str} (h : dobPatternB d = true) :
    (∀ c ∈ d, isDigitChar c = true ∨ c = '-') ∧ d ≠ [] := by
  rcases d with _ | ⟨y1, _ | ⟨y2, _ | ⟨y3, _ | ⟨y4, _ | ⟨s1, _ | ⟨m1, _ | ⟨m2, _ | ⟨s2,
    _ | ⟨d1, _ | ⟨d2, _ | ⟨e, rest⟩⟩⟩⟩⟩⟩⟩⟩⟩⟩⟩
  · exact Bool.noConfusion h
  · exact Bool.noConfusion h
  · exact Bool.noConfusion h
  · exact Bool.noConfusion h
  · exact Bool.noConfusion h
  · exact Bool.noConfusion h
  · exact Bool.noConfusion h
  · exact Bool.noConfusion h
  · exact Bool.noConfusion h
  · exact Bool.noConfusion h
  · have h' : (isDigitChar y1 && isDigitChar y2 && isDigitChar y3 && isDigitChar y4 &&
        (s1 == '-') && isDigitChar m1 && isDigitChar m2 && (s2 == '-') &&
        isDigitChar d1 && isDigitChar d2) = true := h
    simp only [Bool.and_eq_true, beq_iff_eq] at h'
    obtain ⟨⟨⟨⟨⟨⟨⟨⟨⟨hy1, hy2⟩, hy3⟩, hy4⟩, hs1⟩, hm1⟩, hm2⟩, hs2⟩, hd1⟩, hd2⟩ := h'
    refine ⟨?_, List.cons_ne_nil _ _⟩
    intro c hc
    simp only [List.mem_cons, List.not_mem_nil, or_false] at hc
    rcases hc with rfl | rfl | rfl | rfl | rfl | rfl | rfl | rfl | rfl | rfl
    · exact Or.inl hy1
    · exact Or.inl hy2
    · exact Or.inl hy3
    · exact Or.inl hy4
    · exact Or.inr hs1
    · exact Or.inl hm1
    · exact Or.inl hm2
    · exact Or.inr hs2
    · exact Or.inl hd1
    · exact Or.inl hd2
  · exact Bool.noConfusion h

theorem dob_ok_facts {s d : Str} (h : normalize_dob s = .ok d) : NoEq d ∧ d ≠ [] := by
  simp only [normalize_dob, normalize_dobWith] at h
  split at h
  · cases h
  · rename_i hp
    split at h
    · cases h
    · split at h
      · cases h
      · split at h
        · cases h
        · have hd : trimBy isWS s = d := by
            injection h
          have hpat : dobPatternWith isDigitChar (trimBy isWS s) = true := by
            simpa using hp
          rw [hd] at hpat
          obtain ⟨hch, hne⟩ := dobPatternB_chars (show dobPatternB d = true from hpat)
          refine ⟨?_, hne⟩
          intro c hc he
          rcases hch c hc with h1 | h1
          · rw [he] at h1; exact absurd h1 (by decide)
          · rw [he] at h1; exact absurd h1 (by decide)

theorem digitRunsAux_facts : ∀ (s acc : Str), (∀ c ∈ acc, isDigitChar c = true) →
    ∀ r ∈ digitRunsAux s acc, (∀ c ∈ r, isDigitChar c = true) ∧ r ≠ []
  | [], acc, hacc, r, hr => by
    unfold digitRunsAux at hr
    split at hr
    · cases hr
    · rename_i hne
      rw [List.mem_singleton.mp hr]
      refine ⟨fun c hc => hacc c (List.mem_reverse.mp hc), ?_⟩
      intro hh
      rw [List.reverse_eq_nil_iff.mp hh] at hne
      exact hne rfl
  | x :: xs, acc, hacc, r, hr => by
    unfold digitRunsAux at hr
    split at hr
    · rename_i hx
      refine digitRunsAux_facts xs (x :: acc) ?_ r hr
      intro c hc
      rcases List.mem_cons.mp hc with h1 | h1
      · rw [h1]; exact hx
      · exact hacc c h1
    · split at hr
      · exact digitRunsAux_facts xs [] (fun c hc => absurd hc (List.not_mem_nil c)) r hr
      · rename_i hne
        rcases List.mem_cons.mp hr with h1 | h1
        · rw [h1]
          refine ⟨fun c hc => hacc c (List.mem_reverse.mp hc), ?_⟩
          intro hh
          rw [List.reverse_eq_nil_iff.mp hh] at hne
          exact hne rfl
        · exact digitRunsAux_facts xs [] (fun c hc => absurd hc (List.not_mem_nil c)) r h1

theorem takeLast_digit_facts {seq : Str} {k : Nat} (hk : k ≤ seq.length) (hpos : 0 < k)
    (hd : ∀ c ∈ seq, isDigitChar c = true) :
    (∀ c ∈ takeLast k seq, isDigitChar c = true) ∧ takeLast k seq ≠ [] := by
  refine ⟨fun c hc => hd c (List.drop_subset _ _ hc), ?_⟩
  apply List.ne_nil_of_length_pos
  unfold takeLast
  rw [List.length_drop]
  omega

theorem normalize_idno_facts {i v : Str} (h : v ∈ normalize_idno i) :
    (∀ c ∈ v, isDigitChar c = true) ∧ v ≠ [] := by
  simp only [normalize_idno] at h
  rw [mem_sortStr, List.mem_dedup] at h
  obtain ⟨seq, hseq, hv⟩ := List.mem_flatMap.mp h
  have hrun : ∀ c ∈ seq, isDigitChar c = true :=
    (digitRunsAux_facts i [] (fun c hc => absurd hc (List.not_mem_nil c)) seq
      (List.mem_of_mem_filter hseq)).1
  rcases List.mem_append.mp hv with h1 | h1
  · rcases List.mem_append.mp h1 with h2 | h2
    · split at h2
      · rename_i hk
        rw [List.mem_singleton.mp h2]
        exact takeLast_digit_facts hk (by omega) hrun
      · cases h2
    · split at h2
      · rename_i hk
        rw [List.mem_singleton.mp h2]
        exact takeLast_digit_facts (by omega) (by omega) hrun
      · cases h2
  · split at h1
    · rename_i hk
      rw [List.mem_singleton.mp h1]
      exact takeLast_digit_facts (by omega) (by omega) hrun
    · cases h1

theorem idVars_facts {idnos : List Str} : ∀ v ∈ idVarsOf idnos,
    (∀ c ∈ v, isDigitChar c = true) ∧ v ≠ [] := by
  intro v hv
  unfold idVarsOf at hv
  rw [List.mem_dedup] at hv
  obtain ⟨i, -, hvi⟩ := List.mem_flatMap.mp hv
  exact normalize_idno_facts hvi

theorem noEqF_mk {a b c' d' e : Str} (ha : NoEq a) (hb : NoEq b) (hc : NoEq c')
    (hd : NoEq d') (he : NoEq e) :
    ∀ fn, NoEq (fieldValue (TupleFields.mk a b c' d' e) fn) := by
  intro fn
  cases fn
  · exact ha
  · exact hb
  · exact hc
  · exact hd
  · exact he

/-- Provenance of generated tuples: every member of `rawTuples` is a
`build_tuple` of `=`-free field values, and it either carries no ID field,
or no NAME field, or is exactly a given_family × ID-variant tuple produced
under the family-6 guards. -/
theorem rawTuples_provenance {s d : Str} {phones : List Str} {addrs : List AddressInput}
    {idnos : List Str} (hd : NoEq d) {t : Str}
    (ht : t ∈ rawTuples (normalize_name s) d phones addrs idnos) :
    ∃ f : TupleFields, t = build_tuple f ∧ (∀ fn, NoEq (fieldValue f fn)) ∧
      (f.idV = [] ∨ f.nameV = [] ∨
        (f.nameV = (normalize_name s).given_family ∧ f.dobV = d ∧ f.phoneV = [] ∧
         f.addrV = [] ∧ f.idV ∈ idVarsOf idnos ∧ idVarsOf idnos ≠ [] ∧
         (normalize_name s).given_family ≠ [])) := by
  have hnv : ∀ v ∈ nameVariants (normalize_name s), NoEq v :=
    fun v hv => NoEq_of_normChar (variant_pool_chars s v hv)
  have hgf : NoEq (normalize_name s).given_family := by
    obtain ⟨hg, -, hf, -⟩ := normalize_name_field_chars s
    exact NoEq_of_normChar (given_family_chars hg hf)
  simp only [rawTuples] at ht
  rcases List.mem_append.mp ht with hL | hR
  · rcases List.mem_append.mp hL with hL1 | h5
    · rcases List.mem_append.mp hL1 with hL2 | h4
      · rcases List.mem_append.mp hL2 with hL3 | h3
        · rcases List.mem_append.mp hL3 with h1 | h2
          · unfold fam1 at h1
            obtain ⟨nv, hnvm, hbt⟩ := List.mem_map.mp h1
            exact ⟨TupleFields.mk nv d [] [] [], hbt.symm,
              noEqF_mk (hnv nv hnvm) hd noEq_nil noEq_nil noEq_nil, Or.inl rfl⟩
          · unfold fam2 at h2
            obtain ⟨pv, hpvm, hmem⟩ := List.mem_flatMap.mp h2
            obtain ⟨p, -, hpv⟩ := List.mem_map.mp hpvm
            rcases List.mem_append.mp hmem with hA | hA
            · rcases he : pv.e164? with _ | v
              · rw [he] at hA; cases hA
              · rw [he] at hA
                rw [List.mem_singleton.mp hA]
                refine ⟨TupleFields.mk [] d v [] [], rfl,
                  noEqF_mk noEq_nil hd ?_ noEq_nil noEq_nil, Or.inl rfl⟩
                rw [← hpv] at he
                exact (phoneVariants_noEq p "US").1 v he
            · rcases he : pv.last10? with _ | v
              · rw [he] at hA; cases hA
              · rw [he] at hA
                rw [List.mem_singleton.mp hA]
                refine ⟨TupleFields.mk [] d v [] [], rfl,
                  noEqF_mk noEq_nil hd ?_ noEq_nil noEq_nil, Or.inl rfl⟩
                rw [← hpv] at he
                exact (phoneVariants_noEq p "US").2.2 v he
        · unfold fam3 at h3
          obtain ⟨av, havm, hmem⟩ := List.mem_flatMap.mp h3
          obtain ⟨a, -, hav⟩ := List.mem_map.mp havm
          rcases List.mem_append.mp hmem with hA | hA
          · rcases he : av.line1_postal? with _ | v
            · rw [he] at hA; cases hA
            · rw [he] at hA
              rw [List.mem_singleton.mp hA]
              refine ⟨TupleFields.mk [] d [] v [], rfl,
                noEqF_mk noEq_nil hd noEq_nil ?_ noEq_nil, Or.inl rfl⟩
              rw [← hav] at he
              exact (addrVariants_noEq a).1 v he
          · rcases he : av.line1_city_state? with _ | v
            · rw [he] at hA; cases hA
            · rw [he] at hA
              rw [List.mem_singleton.mp hA]
              refine ⟨TupleFields.mk [] d [] v [], rfl,
                noEqF_mk noEq_nil hd noEq_nil ?_ noEq_nil, Or.inl rfl⟩
              rw [← hav] at he
              exact (addrVariants_noEq a).2.1 v he
      · unfold fam4 at h4
        obtain ⟨nv, hnvm, hmem1⟩ := List.mem_flatMap.mp h4
        obtain ⟨pv, hpvm, hmem⟩ := List.mem_flatMap.mp hmem1
        obtain ⟨p, -, hpv⟩ := List.mem_map.mp hpvm
        rcases List.mem_append.mp hmem with hA | hA
        · rcases he : pv.e164? with _ | v
          · rw [he] at hA; cases hA
          · rw [he] at hA
            rw [List.mem_singleton.mp hA]
            refine ⟨TupleFields.mk nv d v [] [], rfl,
              noEqF_mk (hnv nv hnvm) hd ?_ noEq_nil noEq_nil, Or.inl rfl⟩
            rw [← hpv] at he
            exact (phoneVariants_noEq p "US").1 v he
        · rcases he : pv.national? with _ | v
          · rw [he] at hA; cases hA
          · rw [he] at hA
            rw [List.mem_singleton.mp hA]
            refine ⟨TupleFields.mk nv d v [] [], rfl,
              noEqF_mk (hnv nv hnvm) hd ?_ noEq_nil noEq_nil, Or.inl rfl⟩
            rw [← hpv] at he
            exact (phoneVariants_noEq p "US").2.1 v he
    · unfold fam5 at h5
      obtain ⟨nv, hnvm, hmem1⟩ := List.mem_flatMap.mp h5
      obtain ⟨av, havm, hmem⟩ := List.mem_flatMap.mp hmem1
      obtain ⟨a, -, hav⟩ := List.mem_map.mp havm
      rcases List.mem_append.mp hmem with hA | hA
      · rcases he : av.line1_postal? with _ | v
        · rw [he] at hA; cases hA
        · rw [he] at hA
          rw [List.mem_singleton.mp hA]
          refine ⟨TupleFields.mk nv d [] v [], rfl,
            noEqF_mk (hnv nv hnvm) hd noEq_nil ?_ noEq_nil, Or.inl rfl⟩
          rw [← hav] at he
          exact (addrVariants_noEq a).1 v he
      · rcases he : av.line1_city_state? with _ | v
        · rw [he] at hA; cases hA
        · rw [he] at hA
          rw [List.mem_singleton.mp hA]
          refine ⟨TupleFields.mk nv d [] v [], rfl,
            noEqF_mk (hnv nv hnvm) hd noEq_nil ?_ noEq_nil, Or.inl rfl⟩
          rw [← hav] at he
          exact (addrVariants_noEq a).2.1 v he
  · split at hR
    · rename_i hidv
      rcases List.mem_append.mp hR with hF | h8
      · rcases List.mem_append.mp hF with h6 | h7
        · unfold fam6 at h6
          split at h6
          · rename_i hgfne
            obtain ⟨iv, hiv, hbt⟩ := List.mem_map.mp h6
            refine ⟨TupleFields.mk (normalize_name s).given_family d [] [] iv, hbt.symm,
              noEqF_mk hgf hd noEq_nil noEq_nil (noEq_of_digits (idVars_facts iv hiv).1),
              Or.inr (Or.inr ⟨rfl, rfl, rfl, rfl, hiv, ?_, ?_⟩)⟩
            · intro hnil
              rw [hnil] at hidv
              exact hidv rfl
            · intro hnil
              rw [hnil] at hgfne
              exact hgfne rfl
          · cases h6
        · unfold fam7 at h7
          obtain ⟨iv, hiv, hbt⟩ := List.mem_map.mp h7
          exact ⟨TupleFields.mk [] d [] [] iv, hbt.symm,
            noEqF_mk noEq_nil hd noEq_nil noEq_nil (noEq_of_digits (idVars_facts iv hiv).1),
            Or.inr (Or.inl rfl)⟩
      · unfold fam8 at h8
        obtain ⟨pv, hpvm, hmem⟩ := List.mem_flatMap.mp h8
        obtain ⟨p, -, hpv⟩ := List.mem_map.mp hpvm
        rcases he : pv.last10? with _ | v
        · rw [he] at hmem; cases hmem
        · rw [he] at hmem
          obtain ⟨iv, hiv, hbt⟩ := List.mem_map.mp hmem
          refine ⟨TupleFields.mk [] d v [] iv, hbt.symm,
            noEqF_mk noEq_nil hd ?_ noEq_nil (noEq_of_digits (idVars_facts iv hiv).1),
            Or.inr (Or.inl rfl)⟩
          rw [← hpv] at he
          exact (phoneVariants_noEq p "US").2.2 v he
    · cases hR

theorem not_isEmpty_of_ne_nil {α : Type} {l : List α} (h : l ≠ []) : ¬ l.isEmpty = true := by
  cases l
  · exact absurd rfl h
  · exact fun hh => Bool.noConfusion hh

/-- Claim C6: every tuple produced by `generate_tuples` (on a record whose
date of birth passed `normalize_dob`) lists its present fields strictly in
the order NAME, DOB, PHONE, ADDR, ID, with no field repeated: its parsed
field-name list is a duplicate-free sublist of the canonical order, and it
is built from field values with the empty ones omitted entirely (the parsed
field names are exactly the canonical order filtered to nonempty values). -/
theorem c6_field_order (s dob d : Str) (phones : List Str) (addrs : List AddressInput)
    (idnos : List Str) (hdob : normalize_dob dob = .ok d) :
    ∀ t ∈ generate_tuples (normalize_name s) d phones addrs idnos,
      List.Sublist (fieldNamesOf t) fieldOrder ∧ (fieldNamesOf t).Nodup ∧
      ∃ f, t = build_tuple f ∧
        fieldNamesOf t = fieldOrder.filter (fun fn => !(fieldValue f fn).isEmpty) := by
  intro t ht
  unfold generate_tuples at ht
  have h1 := List.mem_of_mem_take ht
  unfold sortedTupleSet at h1
  rw [mem_sortStr] at h1
  unfold tupleSet at h1
  rw [List.mem_dedup] at h1
  obtain ⟨f, hbt, hnoEq, -⟩ := rawTuples_provenance (dob_ok_facts hdob).1 h1
  subst hbt
  have hfn := fieldNamesOf_build_tuple f hnoEq
  refine ⟨?_, ?_, f, rfl, hfn⟩
  · rw [hfn]
    exact List.filter_sublist _
  · rw [hfn]
    exact (by decide : fieldOrder.Nodup).sublist (List.filter_sublist _)

/-- Witness for C6 at a concrete record and tuple. -/
theorem c6_witness :
    List.Sublist (fieldNamesOf (lit "NAME=JRR TOLKIEN|DOB=1892-01-03")) fieldOrder ∧
    (fieldNamesOf (lit "NAME=JRR TOLKIEN|DOB=1892-01-03")).Nodup ∧
    ∃ f, lit "NAME=JRR TOLKIEN|DOB=1892-01-03" = build_tuple f ∧
      fieldNamesOf (lit "NAME=JRR TOLKIEN|DOB=1892-01-03") =
        fieldOrder.filter (fun fn => !(fieldValue f fn).isEmpty) :=
  c6_field_order (lit "MR. JRR Tolkien") (lit "1892-01-03") (lit "1892-01-03") [] [] []
    (by decide) (lit "NAME=JRR TOLKIEN|DOB=1892-01-03") (by decide)

/-- Claim C8: in a processed record, a tuple of the final list carrying
both a NAME and an ID field exists only when at least one ID variant was
extracted, and any such tuple is built from the given_family name variant
(never full, initials_family, given_family_suffix or collapsed_initials)
and one ID variant; conversely, when ID variants exist and given_family is
nonempty, the given_family × ID-variant tuples are all members of the
deduplicated tuple set (of which the returned list is the sorted,
256-capped enumeration per C5). -/
theorem c8_id_tuples (s dob d : Str) (phones : List Str) (addrs : List AddressInput)
    (idnos : List Str) (hdob : normalize_dob dob = .ok d) :
    (∀ t ∈ generate_tuples (normalize_name s) d phones addrs idnos,
      FieldName.NAME ∈ fieldNamesOf t → FieldName.ID ∈ fieldNamesOf t →
        idVarsOf idnos ≠ [] ∧ ∃ iv ∈ idVarsOf idnos,
          t = build_tuple (TupleFields.mk (normalize_name s).given_family d [] [] iv)) ∧
    (idVarsOf idnos ≠ [] → (normalize_name s).given_family ≠ [] →
      ∀ iv ∈ idVarsOf idnos,
        build_tuple (TupleFields.mk (normalize_name s).given_family d [] [] iv) ∈
          tupleSet (normalize_name s) d phones addrs idnos) := by
  constructor
  · intro t ht hNAME hID
    unfold generate_tuples at ht
    have h1 := List.mem_of_mem_take ht
    unfold sortedTupleSet at h1
    rw [mem_sortStr] at h1
    unfold tupleSet at h1
    rw [List.mem_dedup] at h1
    obtain ⟨f, hbt, hnoEq, hdisj⟩ := rawTuples_provenance (dob_ok_facts hdob).1 h1
    subst hbt
    have hfn := fieldNamesOf_build_tuple f hnoEq
    rcases hdisj with hid | hname | hpayload
    · exfalso
      rw [hfn] at hID
      have hpred := List.of_mem_filter hID
      rw [show fieldValue f FieldName.ID = f.idV from rfl, hid] at hpred
      exact Bool.noConfusion hpred
    · exfalso
      rw [hfn] at hNAME
      have hpred := List.of_mem_filter hNAME
      rw [show fieldValue f FieldName.NAME = f.nameV from rfl, hname] at hpred
      exact Bool.noConfusion hpred
    · obtain ⟨he1, he2, he3, he4, hiv, hne, -⟩ := hpayload
      refine ⟨hne, f.idV, hiv, ?_⟩
      cases f
      dsimp only at he1 he2 he3 he4 ⊢
      rw [he1, he2, he3, he4]
  · intro hne hgfne iv hiv
    unfold tupleSet
    rw [List.mem_dedup]
    simp only [rawTuples]
    apply List.mem_append.mpr
    right
    rw [if_pos (not_isEmpty_of_ne_nil hne)]
    apply List.mem_append.mpr
    left
    apply List.mem_append.mpr
    left
    unfold fam6
    rw [if_pos (not_isEmpty_of_ne_nil hgfne)]
    exact List.mem_map.mpr ⟨iv, hiv, rfl⟩

/-- Witness for C8 at a concrete record: identifier "ID-123456789" yields
the ID variants 6789, 56789, 456789, and the given_family × ID tuple for
6789 is in the tuple set. -/
theorem c8_witness :
    idVarsOf [lit "ID-123456789"] ≠ [] ∧
    build_tuple (TupleFields.mk (normalize_name (lit "Ann Lee")).given_family
        (lit "1990-01-02") [] [] (lit "6789")) ∈
      tupleSet (normalize_name (lit "Ann Lee")) (lit "1990-01-02") [] []
        [lit "ID-123456789"] :=
  ⟨by decide,
   (c8_id_tuples (lit "Ann Lee") (lit "1990-01-02") (lit "1990-01-02") [] []
      [lit "ID-123456789"] (by decide)).2
    (by decide) (by decide) (lit "6789") (by decide)⟩
